import Mathlib

/-
  Verification of the memzero in-process memory store
  (classes Memory, SimpleEmbedding, Mem0 of the main source file).

  Shallow embedding notes:
  * JS objects used as string-keyed records are modelled as association
    lists `List (String × _)` preserving JS key insertion order; a JS
    `Map` is likewise an association list in insertion order, since both
    iterate in insertion order and `Map.set` updates in place.
  * JS numbers are modelled as exact rationals `ℚ`; the real-valued
    cosine similarity (which uses `Math.sqrt`) is modelled over `ℝ`
    with `Real.sqrt`.  The store never stores a square root: every
    branch of the store compares similarities, and each comparison is
    mediated by the strictly monotone map `q ↦ q * |q|` (`sgnSq`), so
    the executable store carries the exact rational `sgnSq`-image of
    each cosine (`cosineSq`), with bridge lemmas relating the two.
  * ISO-8601 timestamps are abstracted to `Nat` clock values wrapped in
    `Value.vNat`; a metadata timestamp that is not a `vNat` models a
    value on which `new Date(x).getTime()` yields NaN.
  * A JS exception is modelled by an `Option`-valued result paired with
    the store state visible after the exception propagates.
-/

namespace MemZero

/-- Dynamic JS values stored in a metadata bag: strings, numbers
(abstracted timestamps included) and arrays of strings (tag lists). -/
inductive Value where
  | vStr : String → Value
  | vNat : Nat → Value
  | vTags : List String → Value
deriving DecidableEq, Repr

/-- A metadata object: string keys to dynamic values, in key insertion
order, keys unique as in every JS object. -/
abbrev Metadata := List (String × Value)

/-- Lookup of a key in a JS object (first match; keys are unique). -/
def mdLookup (md : Metadata) (k : String) : Option Value :=
  (md.find? (fun p => p.1 == k)).map (fun p => p.2)

/-- Assignment `obj[k] = v` on a JS object: updates the value in place
when the key exists, otherwise appends the key at the end. -/
def setKey (md : Metadata) (k : String) (v : Value) : Metadata :=
  if md.any (fun p => p.1 == k) then
    md.map (fun p => if p.1 == k then (p.1, v) else p)
  else md ++ [(k, v)]

/-- The JS object spread `\x7b...a, ...b\x7d`: keys of `a` in order with
values overridden by `b` where present, then the keys of `b` absent from
`a`, in their order. -/
def objMerge (a b : Metadata) : Metadata :=
  a.map (fun p => match mdLookup b p.1 with
    | some v => (p.1, v)
    | none => p) ++
  b.filter (fun q => ¬ a.any (fun p => p.1 == q.1))

/-- Model of `new Date(x).getTime()` on a metadata value: a `vNat` is a
valid clock reading, anything else parses to NaN (`none`). -/
def timeOf : Option Value → Option Nat
  | some (Value.vNat n) => some n
  | _ => none

/-- A sparse embedding: token to weight, in key insertion order. -/
abbrev Emb := List (String × ℚ)

/-- JS `\w`: ASCII letters, digits and underscore. -/
def isWordChar (c : Char) : Bool := c.isAlphanum || c == '_'

/-- Splitting a character list on whitespace, producing the pieces
between whitespace characters (empty pieces included, as JS
`split(/\s+/)` can produce a leading empty piece). -/
def wsSplit : List Char → List Char → List String
  | [], cur => [String.mk cur.reverse]
  | c :: rest, cur =>
    if c.isWhitespace then String.mk cur.reverse :: wsSplit rest []
    else wsSplit rest (c :: cur)

/-- SimpleEmbedding.tokenize: lowercase, strip every character that is
neither a word character nor whitespace, split on whitespace runs, drop
empty tokens. -/
def tokenize (text : String) : List String :=
  (wsSplit ((text.toList.map Char.toLower).filter
    (fun c => isWordChar c || c.isWhitespace)) []).filter
    (fun w => w.length > 0)

/-- Token frequency table of SimpleEmbedding.computeEmbedding, keys in
first-occurrence order as for a JS object. -/
def freqOf (tokens : List String) : List (String × Nat) :=
  tokens.foldl (fun acc t =>
    if acc.any (fun p => p.1 == t) then
      acc.map (fun p => if p.1 == t then (p.1, p.2 + 1) else p)
    else acc ++ [(t, 1)]) []

/-- Maximum frequency in the table (`Math.max(...Object.values(freq))`;
the value is irrelevant when the table is empty, since the final map
loops over no keys in that case). -/
def maxFreq (freq : List (String × Nat)) : Nat :=
  freq.foldl (fun acc p => max acc p.2) 0

/-- SimpleEmbedding.computeEmbedding: token frequencies divided by the
maximum frequency. -/
def computeEmbedding (text : String) : Emb :=
  let freq := freqOf (tokenize text)
  freq.map (fun p => (p.1, (p.2 : ℚ) / (maxFreq freq : ℚ)))

/-- JS `embedding[key] || 0`. -/
def embGet (e : Emb) (k : String) : ℚ :=
  ((e.find? (fun p => p.1 == k)).map (fun p => p.2)).getD 0

/-- First-occurrence deduplication, the iteration order of
`new Set([...keys1, ...keys2])`. -/
def dedupFirst : List String → List String
  | [] => []
  | a :: rest => a :: (dedupFirst rest).filter (fun x => x ≠ a)

/-- The union `allKeys` of cosineSimilarity. -/
def allKeys (e1 e2 : Emb) : List String :=
  dedupFirst (e1.map (fun p => p.1) ++ e2.map (fun p => p.1))

/-- The accumulated `dotProduct` of cosineSimilarity. -/
def dotProduct (e1 e2 : Emb) : ℚ :=
  ((allKeys e1 e2).map (fun k => embGet e1 k * embGet e2 k)).sum

/-- The accumulated `norm1` of cosineSimilarity (sum of squares of the
first embedding over the key union). -/
def normSq1 (e1 e2 : Emb) : ℚ :=
  ((allKeys e1 e2).map (fun k => embGet e1 k * embGet e1 k)).sum

/-- The accumulated `norm2` of cosineSimilarity. -/
def normSq2 (e1 e2 : Emb) : ℚ :=
  ((allKeys e1 e2).map (fun k => embGet e2 k * embGet e2 k)).sum

/-- SimpleEmbedding.cosineSimilarity:
`dotProduct / (Math.sqrt(norm1) * Math.sqrt(norm2))`, with the guard
returning 0 when either norm is 0. -/
noncomputable def cosineSimilarity (e1 e2 : Emb) : ℝ :=
  if normSq1 e1 e2 = 0 ∨ normSq2 e1 e2 = 0 then 0
  else (dotProduct e1 e2 : ℝ) /
    (Real.sqrt (normSq1 e1 e2) * Real.sqrt (normSq2 e1 e2))

/-- The strictly monotone signed square `q * |q|`; the executable store
compares similarities through their images under this map. -/
def sgnSq (q : ℚ) : ℚ := q * |q|

/-- The inverse direction of `sgnSq` over the reals. -/
noncomputable def realOfSq (q : ℚ) : ℝ :=
  if 0 ≤ q then Real.sqrt q else -Real.sqrt (-q)

/-- The exact rational carrier of a cosine similarity: its image under
`sgnSq`.  The bridge lemma `cosineSimilarity_eq_realOfSq` shows
`cosineSimilarity e1 e2 = realOfSq (cosineSq e1 e2)`. -/
def cosineSq (e1 e2 : Emb) : ℚ :=
  if normSq1 e1 e2 = 0 ∨ normSq2 e1 e2 = 0 then 0
  else sgnSq (dotProduct e1 e2) / (normSq1 e1 e2 * normSq2 e1 e2)

/-- Class Memory: one stored record. -/
structure Memory where
  id : String
  content : String
  metadata : Metadata
  embeddings : Option Emb
  tags : List String
deriving DecidableEq, Repr

/-- The tags read by the Memory constructor from `metadata.tags || []`;
only an array value yields tags (a non-array truthy `tags` value is out
of scope of the claims). -/
def tagsOf (md : Metadata) : List String :=
  match mdLookup md "tags" with
  | some (Value.vTags ts) => ts
  | _ => []

/-- The Memory constructor: metadata becomes
`\x7btimestamp: now, ...metadata\x7d`, embeddings start null, tags come
from the metadata. -/
def mkMemory (now : Nat) (id content : String) (metadata : Metadata) : Memory :=
  { id := id
    content := content
    metadata := objMerge [("timestamp", Value.vNat now)] metadata
    embeddings := none
    tags := tagsOf metadata }

/-- Memory.updateContent: replace the content, stamp `lastUpdated`, and
reset the embeddings to null. -/
def updateContent (now : Nat) (m : Memory) (newContent : String) : Memory :=
  { m with
    content := newContent
    metadata := setKey m.metadata "lastUpdated" (Value.vNat now)
    embeddings := none }

/-- The resolved configuration of a Mem0 store. -/
structure Config where
  maxMemories : Nat
  similarityThreshold : ℚ
  autoExpire : Bool
  expireAfterDays : Nat
deriving DecidableEq, Repr

/-- The configuration argument of the Mem0 constructor: each field may
be absent; a present 0 (or `false`) is falsy in JS and also selects the
default. -/
structure InitOpts where
  maxMemories : Option Nat := none
  similarityThreshold : Option ℚ := none
  autoExpire : Option Bool := none
  expireAfterDays : Option Nat := none

/-- JS `x || d` for an optional number: absent or 0 gives the default. -/
def orDefaultNat (x : Option Nat) (d : Nat) : Nat :=
  match x with
  | some n => if n = 0 then d else n
  | none => d

/-- JS `x || d` for an optional rational. -/
def orDefaultQ (x : Option ℚ) (d : ℚ) : ℚ :=
  match x with
  | some q => if q = 0 then d else q
  | none => d

/-- Class Mem0: the store state (record collection in insertion order,
configuration, id counter). -/
structure Mem0 where
  memories : List (String × Memory)
  config : Config
  nextId : Nat
deriving DecidableEq, Repr

/-- The Mem0 constructor (the cleanup timer only schedules
`cleanupExpired`, modelled as an explicit operation). -/
def mkMem0 (opts : InitOpts) : Mem0 :=
  { memories := []
    config :=
      { maxMemories := orDefaultNat opts.maxMemories 1000
        similarityThreshold := orDefaultQ opts.similarityThreshold (7/10)
        autoExpire := opts.autoExpire.getD false
        expireAfterDays := orDefaultNat opts.expireAfterDays 30 }
    nextId := 1 }

/-- JS `Map.get(id)` (`|| null` in Mem0.get folds into the `Option`). -/
def mapGet (l : List (String × Memory)) (k : String) : Option Memory :=
  (l.find? (fun p => p.1 == k)).map (fun p => p.2)

/-- JS `Map.set(id, v)`: update in place when the key exists, append
otherwise. -/
def mapSet (l : List (String × Memory)) (k : String) (v : Memory) :
    List (String × Memory) :=
  if l.any (fun p => p.1 == k) then
    l.map (fun p => if p.1 == k then (p.1, v) else p)
  else l ++ [(k, v)]

/-- JS `Map.delete(id)`: drop the entry with that key. -/
def mapErase (l : List (String × Memory)) (k : String) :
    List (String × Memory) :=
  l.filter (fun p => ¬ (p.1 == k))

/-- One entry of the list Mem0.search accumulates: the pushed fields
`memory` and `id` (derived) plus, for object identity of the in-place
mutation in the merge branch of `add`, the map key of the record; the
JS `similarity` field is the real `realOfSq simSq`. -/
structure SearchHit where
  key : String
  mem : Memory
  simSq : ℚ
deriving DecidableEq, Repr

/-- The loop of Mem0.search over `memories.values()`: a record with
null embeddings throws (`Object.keys(null)`), modelled as `none`; a
record is pushed exactly when its similarity is strictly positive
(over the reals, `cosine > 0 ↔ 0 < cosineSq` by `realOfSq_lt_iff`). -/
def searchGo (qEmb : Emb) : List (String × Memory) → Option (List SearchHit)
  | [] => some []
  | (k, m) :: rest =>
    match m.embeddings with
    | none => none
    | some e =>
      match searchGo qEmb rest with
      | none => none
      | some hits =>
        if 0 < cosineSq qEmb e then
          some ({ key := k, mem := m, simSq := cosineSq qEmb e } :: hits)
        else some hits

/-- Mem0.search: vectorize the query, score every record, keep strictly
positive scores, sort descending by similarity (JS sort is stable; the
comparator `b.similarity - a.similarity` over the reals is mirrored
exactly on the `sgnSq` images), truncate to `limit`. -/
def searchFn (s : Mem0) (query : String) (limit : Nat) :
    Option (List SearchHit) :=
  (searchGo (computeEmbedding query) s.memories).map
    (fun hits => (hits.mergeSort (fun a b => decide (b.simSq ≤ a.simSq))).take limit)

/-- Mem0.findSimilar: identical to search with its own default limit. -/
def findSimilarFn (s : Mem0) (content : String) (limit : Nat) :
    Option (List SearchHit) :=
  searchFn s content limit

/-- The timestamp reading of evictOldest and cleanupExpired. -/
def memTime (m : Memory) : Option Nat := timeOf (mdLookup m.metadata "timestamp")

/-- The fold of Mem0.evictOldest: first entry attaining the strictly
smallest valid timestamp (`time < oldestTime` skips NaN and keeps the
earlier entry on ties). -/
def oldestEntry (entries : List (String × Memory)) : Option (String × Nat) :=
  entries.foldl (fun acc p =>
    match memTime p.2 with
    | none => acc
    | some t =>
      match acc with
      | none => some (p.1, t)
      | some (k0, t0) => if t < t0 then (some (p.1, t)) else some (k0, t0)) none

/-- Mem0.evictOldest: delete the oldest entry when one was found (the
guard `if (oldestId)` also skips an empty-string key, which is falsy). -/
def evictOldest (s : Mem0) : Mem0 :=
  match oldestEntry s.memories with
  | some (k, _) => if k = "" then s else { s with memories := mapErase s.memories k }
  | none => s

/-- Mem0.add.  The id counter advances first (post-increment), then the
fresh Memory is built and its embeddings computed; `findSimilar` may
throw on a record whose embeddings were nulled by a previous merge, in
which case the exception propagates with only the counter advanced.  A
best match strictly above the threshold (over the reals; mirrored on
`sgnSq` images) is updated in place and its id returned without an
insertion; otherwise the new record is inserted and the oldest record
evicted when the size exceeds the maximum. -/
def addFn (now : Nat) (s : Mem0) (content : String) (metadata : Metadata) :
    Option String × Mem0 :=
  let id := "mem_" ++ toString s.nextId
  let s1 : Mem0 := { s with nextId := s.nextId + 1 }
  let mem : Memory :=
    { mkMemory now id content metadata with
      embeddings := some (computeEmbedding content) }
  match findSimilarFn s1 content 1 with
  | none => (none, s1)
  | some similar =>
    match similar with
    | best :: _ =>
      if sgnSq s1.config.similarityThreshold < best.simSq then
        (some best.mem.id,
          { s1 with memories := s1.memories.map (fun p =>
              if p.1 == best.key then
                (p.1,
                  { updateContent now p.2 content with
                    metadata :=
                      objMerge (updateContent now p.2 content).metadata metadata })
              else p) })
      else
        let s2 : Mem0 := { s1 with memories := mapSet s1.memories id mem }
        (some id,
          if s2.config.maxMemories < s2.memories.length then evictOldest s2 else s2)
    | [] =>
      let s2 : Mem0 := { s1 with memories := mapSet s1.memories id mem }
      (some id,
        if s2.config.maxMemories < s2.memories.length then evictOldest s2 else s2)

/-- Mem0.get. -/
def getFn (s : Mem0) (id : String) : Option Memory := mapGet s.memories id

/-- Mem0.update: throws when the id is absent (`none`, store
unchanged); otherwise updates the content, merges the metadata and
recomputes the embeddings in place, returning the record. -/
def updateFn (now : Nat) (s : Mem0) (id content : String) (metadata : Metadata) :
    Option Memory × Mem0 :=
  match mapGet s.memories id with
  | none => (none, s)
  | some m =>
    let m1 := updateContent now m content
    let m2 : Memory :=
      { m1 with
        metadata := objMerge m1.metadata metadata
        embeddings := some (computeEmbedding content) }
    (some m2, { s with memories := mapSet s.memories id m2 })

/-- Mem0.delete. -/
def deleteFn (s : Mem0) (id : String) : Bool × Mem0 :=
  (s.memories.any (fun p => p.1 == id), { s with memories := mapErase s.memories id })

/-- Mem0.clear. -/
def clearFn (s : Mem0) : Mem0 :=
  { s with memories := [], nextId := 1 }

/-- Mem0.cleanupExpired: when auto-expire is on, delete every record
whose timestamp is strictly before now minus the expiry age (an
unparseable timestamp compares as NaN and is kept; time is measured in
days). -/
def cleanupExpired (now : Nat) (s : Mem0) : Mem0 :=
  if s.config.autoExpire then
    { s with memories := s.memories.filter (fun p =>
        match memTime p.2 with
        | some t => ¬ ((t : ℤ) < (now : ℤ) - (s.config.expireAfterDays : ℤ))
        | none => true) }
  else s

/-- One serialized record inside a snapshot (the fields of a Memory
that JSON.stringify emits and import reads back; an absent or null
field is `none`). -/
structure MemData where
  id : String
  content : String
  metadata : Metadata
  embeddings : Option Emb
  tags : Option (List String)
deriving DecidableEq, Repr

/-- The `config` object of a snapshot: any subset of the four fields
(spread over the current configuration on import). -/
structure ConfigPatch where
  maxMemories : Option Nat := none
  similarityThreshold : Option ℚ := none
  autoExpire : Option Bool := none
  expireAfterDays : Option Nat := none
deriving DecidableEq, Repr

/-- JS `\x7b...this.config, ...data.config\x7d`. -/
def applyPatch (c : Config) (p : ConfigPatch) : Config :=
  { maxMemories := p.maxMemories.getD c.maxMemories
    similarityThreshold := p.similarityThreshold.getD c.similarityThreshold
    autoExpire := p.autoExpire.getD c.autoExpire
    expireAfterDays := p.expireAfterDays.getD c.expireAfterDays }

/-- A patch carrying the full configuration. -/
def fullPatch (c : Config) : ConfigPatch :=
  { maxMemories := some c.maxMemories
    similarityThreshold := some c.similarityThreshold
    autoExpire := some c.autoExpire
    expireAfterDays := some c.expireAfterDays }

/-- The parsed body of a snapshot.  `memories = none` models a parsed
object whose `memories` field is missing or not iterable, on which the
`for..of` loop of import throws midway; `nextId = none` or `some 0`
models a falsy `data.nextId` (the `|| 1` applies).  The `exportDate`
field is ignored by import and omitted. -/
structure ImportData where
  config : Option ConfigPatch := none
  nextId : Option Nat := none
  memories : Option (List (String × MemData)) := none
deriving DecidableEq, Repr

/-- Serialization of one record for Mem0.export. -/
def memDataOf (m : Memory) : MemData :=
  { id := m.id
    content := m.content
    metadata := m.metadata
    embeddings := m.embeddings
    tags := some m.tags }

/-- Mem0.export, modelled at the level of the parsed JSON payload
(JSON string round-tripping is the identity on this data). -/
def exportFn (s : Mem0) : ImportData :=
  { config := some (fullPatch s.config)
    nextId := some s.nextId
    memories := some (s.memories.map (fun p => (p.1, memDataOf p.2))) }

/-- Reconstruction of one record inside import: the Memory constructor
runs on the serialized fields, then embeddings and tags are restored
(`memoryData.tags || []`; an array, even empty, is truthy). -/
def rebuildMemory (now : Nat) (md : MemData) : Memory :=
  { mkMemory now md.id md.content md.metadata with
    embeddings := md.embeddings
    tags := md.tags.getD [] }

/-- Mem0.import.  A `none` snapshot is a string `JSON.parse` rejects:
the catch returns false with nothing mutated.  A parsed snapshot first
clears the collection and overwrites config and nextId; if the
`memories` field then turns out unusable the throw is caught and false
returned with those mutations kept. -/
def importFn (now : Nat) (s : Mem0) (snapshot : Option ImportData) :
    Bool × Mem0 :=
  match snapshot with
  | none => (false, s)
  | some d =>
    let s1 : Mem0 :=
      { s with
        memories := []
        config := applyPatch s.config (d.config.getD {})
        nextId := match d.nextId with
          | some n => if n = 0 then 1 else n
          | none => 1 }
    match d.memories with
    | none => (false, s1)
    | some entries =>
      let rebuilt := entries.foldl
        (fun acc kv => mapSet acc kv.1 (rebuildMemory now kv.2)) []
      (true, { s1 with memories := rebuilt })

/-- The mutating public operations other than import, each carrying the
clock value at which it runs. -/
inductive Op where
  | opAdd (now : Nat) (content : String) (metadata : Metadata)
  | opUpdate (now : Nat) (id content : String) (metadata : Metadata)
  | opDelete (id : String)
  | opClear
  | opCleanup (now : Nat)

/-- The state transition of one operation (results discarded; a thrown
exception leaves the state the operation left behind). -/
def applyOp (s : Mem0) : Op → Mem0
  | Op.opAdd now content metadata => (addFn now s content metadata).2
  | Op.opUpdate now id content metadata => (updateFn now s id content metadata).2
  | Op.opDelete id => (deleteFn s id).2
  | Op.opClear => clearFn s
  | Op.opCleanup now => cleanupExpired now s

/-- Running a sequence of operations from a state. -/
def runOps (s : Mem0) (ops : List Op) : Mem0 :=
  ops.foldl applyOp s

/-- The vector-freshness invariant of the specification: every stored
vector is absent or exactly the vectorization of the current content. -/
def VecFresh (s : Mem0) : Prop :=
  ∀ p ∈ s.memories, p.2.embeddings = none ∨
    p.2.embeddings = some (computeEmbedding p.2.content)

/-- Decidable check that a metadata object carries `timestamp` as its
first key and nowhere else — the shape the Memory constructor gives
every record it builds. -/
def tsFirstB : Metadata → Bool
  | (k, _) :: rest => k == "timestamp" && !(rest.any (fun p => p.1 == "timestamp"))
  | [] => false

/-- The record Mem0.update produces for an existing record: content
replaced, lastUpdated stamped, the new metadata shallow-merged over it,
and the embeddings recomputed from the new content. -/
def updatedMem (now : Nat) (m : Memory) (content : String) (md : Metadata) :
    Memory :=
  { m with
    content := content
    metadata := objMerge (setKey m.metadata "lastUpdated" (Value.vNat now)) md
    embeddings := some (computeEmbedding content) }

/-! Basic facts about the embedding vectors and the two cosine forms. -/

theorem mem_dedupFirst {l : List String} {x : String} :
    x ∈ dedupFirst l ↔ x ∈ l := by
  induction l with
  | nil => simp [dedupFirst]
  | cons a rest ih =>
    by_cases hxa : x = a
    · simp [dedupFirst, hxa]
    · simp [dedupFirst, hxa, List.mem_filter, ih]

theorem nodup_dedupFirst (l : List String) : (dedupFirst l).Nodup := by
  induction l with
  | nil => simp [dedupFirst]
  | cons a rest ih =>
    simp only [dedupFirst, List.nodup_cons]
    refine ⟨by simp [List.mem_filter], List.Nodup.filter _ ih⟩

theorem mem_allKeys_left {e1 e2 : Emb} {k : String}
    (h : k ∈ e1.map (fun p => p.1)) : k ∈ allKeys e1 e2 := by
  simp only [allKeys, mem_dedupFirst, List.mem_append]
  exact Or.inl h

theorem mem_allKeys_iff {e1 e2 : Emb} {k : String} :
    k ∈ allKeys e1 e2 ↔
      k ∈ e1.map (fun p => p.1) ∨ k ∈ e2.map (fun p => p.1) := by
  simp [allKeys, mem_dedupFirst]

theorem embGet_eq_zero_of_not_mem {e : Emb} {k : String}
    (h : k ∉ e.map (fun p => p.1)) : embGet e k = 0 := by
  have hfind : e.find? (fun p => p.1 == k) = none := by
    rw [List.find?_eq_none]
    intro p hp hbeq
    exact h (List.mem_map.mpr ⟨p, hp, beq_iff_eq.mp hbeq⟩)
  simp [embGet, hfind]

theorem embGet_mem_of_ne_zero {e : Emb} {k : String}
    (h : embGet e k ≠ 0) : ∃ p ∈ e, p.1 = k ∧ p.2 = embGet e k := by
  unfold embGet at *
  cases hfind : e.find? (fun p => p.1 == k) with
  | none => simp [hfind] at h
  | some p =>
    refine ⟨p, List.mem_of_find?_eq_some hfind, ?_, by simp [hfind]⟩
    have := List.find?_some hfind
    exact beq_iff_eq.mp this

theorem nodup_allKeys (e1 e2 : Emb) : (allKeys e1 e2).Nodup :=
  nodup_dedupFirst _

theorem normSq1_nonneg (e1 e2 : Emb) : 0 ≤ normSq1 e1 e2 := by
  apply List.sum_nonneg
  intro x hx
  obtain ⟨k, _, rfl⟩ := List.mem_map.mp hx
  exact mul_self_nonneg _

theorem normSq2_nonneg (e1 e2 : Emb) : 0 ≤ normSq2 e1 e2 := by
  apply List.sum_nonneg
  intro x hx
  obtain ⟨k, _, rfl⟩ := List.mem_map.mp hx
  exact mul_self_nonneg _

theorem dotProduct_eq_finsetSum (e1 e2 : Emb) :
    dotProduct e1 e2 =
      ∑ k ∈ (allKeys e1 e2).toFinset, embGet e1 k * embGet e2 k := by
  rw [dotProduct, ← List.sum_toFinset _ (nodup_allKeys e1 e2)]

theorem normSq1_eq_finsetSum (e1 e2 : Emb) :
    normSq1 e1 e2 = ∑ k ∈ (allKeys e1 e2).toFinset, embGet e1 k ^ 2 := by
  rw [normSq1, ← List.sum_toFinset _ (nodup_allKeys e1 e2)]
  exact Finset.sum_congr rfl (fun k _ => (pow_two _).symm)

theorem normSq2_eq_finsetSum (e1 e2 : Emb) :
    normSq2 e1 e2 = ∑ k ∈ (allKeys e1 e2).toFinset, embGet e2 k ^ 2 := by
  rw [normSq2, ← List.sum_toFinset _ (nodup_allKeys e1 e2)]
  exact Finset.sum_congr rfl (fun k _ => (pow_two _).symm)

theorem toFinset_allKeys_comm (e1 e2 : Emb) :
    (allKeys e1 e2).toFinset = (allKeys e2 e1).toFinset := by
  ext k
  simp only [List.mem_toFinset, mem_allKeys_iff]
  exact Or.comm

/-- Cauchy-Schwarz for the three accumulated sums of cosineSimilarity. -/
theorem dotProduct_sq_le (e1 e2 : Emb) :
    dotProduct e1 e2 ^ 2 ≤ normSq1 e1 e2 * normSq2 e1 e2 := by
  rw [dotProduct_eq_finsetSum, normSq1_eq_finsetSum, normSq2_eq_finsetSum]
  exact Finset.sum_mul_sq_le_sq_mul_sq _ _ _

theorem normSq1_swap (e1 e2 : Emb) : normSq1 e1 e2 = normSq2 e2 e1 := by
  rw [normSq1_eq_finsetSum, normSq2_eq_finsetSum, toFinset_allKeys_comm]

theorem dotProduct_swap (e1 e2 : Emb) : dotProduct e1 e2 = dotProduct e2 e1 := by
  rw [dotProduct_eq_finsetSum, dotProduct_eq_finsetSum, toFinset_allKeys_comm]
  exact Finset.sum_congr rfl (fun k _ => mul_comm _ _)

/-! The bridge between the real cosine and its exact rational carrier. -/

theorem realOfSq_zero : realOfSq 0 = 0 := by
  simp [realOfSq]

theorem realOfSq_one : realOfSq 1 = 1 := by
  simp [realOfSq]

theorem realOfSq_strictMono : StrictMono realOfSq := by
  intro a b hab
  have habR : (a:ℝ) < (b:ℝ) := by exact_mod_cast hab
  unfold realOfSq
  rcases le_or_lt 0 a with ha | ha
  · have haR : (0:ℝ) ≤ (a:ℝ) := by exact_mod_cast ha
    have hb : (0:ℚ) ≤ b := le_of_lt (lt_of_le_of_lt ha hab)
    rw [if_pos ha, if_pos hb]
    exact Real.sqrt_lt_sqrt haR habR
  · have haR : (a:ℝ) < 0 := by exact_mod_cast ha
    rcases le_or_lt 0 b with hb | hb
    · rw [if_neg (not_le.mpr ha), if_pos hb]
      have h1 : (0:ℝ) < Real.sqrt (-((a:ℚ):ℝ)) := Real.sqrt_pos.mpr (by linarith)
      have h2 : (0:ℝ) ≤ Real.sqrt ((b:ℚ):ℝ) := Real.sqrt_nonneg _
      linarith
    · have hbR : (b:ℝ) < 0 := by exact_mod_cast hb
      rw [if_neg (not_le.mpr ha), if_neg (not_le.mpr hb)]
      have h3 : Real.sqrt (-((b:ℚ):ℝ)) < Real.sqrt (-((a:ℚ):ℝ)) :=
        Real.sqrt_lt_sqrt (by linarith) (by linarith)
      linarith

theorem realOfSq_lt_iff {a b : ℚ} : realOfSq a < realOfSq b ↔ a < b :=
  realOfSq_strictMono.lt_iff_lt

theorem realOfSq_le_iff {a b : ℚ} : realOfSq a ≤ realOfSq b ↔ a ≤ b :=
  realOfSq_strictMono.le_iff_le

/-- The real cosine is exactly the `realOfSq` image of the rational
carrier `cosineSq`: the executable store therefore compares
similarities exactly as the source compares the real values. -/
theorem cosineSimilarity_eq_realOfSq (e1 e2 : Emb) :
    cosineSimilarity e1 e2 = realOfSq (cosineSq e1 e2) := by
  unfold cosineSimilarity cosineSq
  by_cases hg : normSq1 e1 e2 = 0 ∨ normSq2 e1 e2 = 0
  · rw [if_pos hg, if_pos hg, realOfSq_zero]
  · rw [if_neg hg, if_neg hg]
    push_neg at hg
    have hn1 : 0 < normSq1 e1 e2 := lt_of_le_of_ne (normSq1_nonneg e1 e2) (Ne.symm hg.1)
    have hn2 : 0 < normSq2 e1 e2 := lt_of_le_of_ne (normSq2_nonneg e1 e2) (Ne.symm hg.2)
    set d := dotProduct e1 e2 with hd
    have hn1R : (0:ℝ) < (normSq1 e1 e2 : ℚ) := by exact_mod_cast hn1
    have hn2R : (0:ℝ) < (normSq2 e1 e2 : ℚ) := by exact_mod_cast hn2
    have hprod : (0:ℝ) < (normSq1 e1 e2 : ℝ) * (normSq2 e1 e2 : ℝ) := mul_pos hn1R hn2R
    have hsqrt : Real.sqrt ((normSq1 e1 e2 : ℝ) * (normSq2 e1 e2 : ℝ)) =
        Real.sqrt (normSq1 e1 e2 : ℝ) * Real.sqrt (normSq2 e1 e2 : ℝ) :=
      Real.sqrt_mul (le_of_lt hn1R) _
    rcases le_or_lt 0 d with hdpos | hdneg
    · have hq : (0:ℚ) ≤ sgnSq d / (normSq1 e1 e2 * normSq2 e1 e2) := by
        apply div_nonneg _ (le_of_lt (mul_pos hn1 hn2))
        simp only [sgnSq]
        exact mul_nonneg hdpos (abs_nonneg _)
      rw [realOfSq, if_pos hq]
      have habs : |d| = d := abs_of_nonneg hdpos
      have hcast : ((sgnSq d / (normSq1 e1 e2 * normSq2 e1 e2) : ℚ) : ℝ) =
          (d:ℝ) ^ 2 / ((normSq1 e1 e2 : ℝ) * (normSq2 e1 e2 : ℝ)) := by
        push_cast [sgnSq, habs]
        ring
      rw [hcast, Real.sqrt_div (sq_nonneg _), Real.sqrt_sq (by exact_mod_cast hdpos),
        hsqrt]
    · have hq : ¬ (0:ℚ) ≤ sgnSq d / (normSq1 e1 e2 * normSq2 e1 e2) := by
        apply not_le.mpr
        apply div_neg_of_neg_of_pos _ (mul_pos hn1 hn2)
        simp only [sgnSq]
        apply mul_neg_of_neg_of_pos hdneg
        exact abs_pos.mpr (ne_of_lt hdneg)
      rw [realOfSq, if_neg hq]
      have habs : |d| = -d := abs_of_neg hdneg
      have hcast : (-(sgnSq d / (normSq1 e1 e2 * normSq2 e1 e2) : ℚ) : ℝ) =
          (d:ℝ) ^ 2 / ((normSq1 e1 e2 : ℝ) * (normSq2 e1 e2 : ℝ)) := by
        push_cast [sgnSq, habs]
        ring
      rw [hcast, Real.sqrt_div (sq_nonneg _), Real.sqrt_sq_eq_abs,
        abs_of_neg (show (d:ℝ) < 0 by exact_mod_cast hdneg), hsqrt]
      field_simp

/-! Invariants of the frequency table and the computed embeddings. -/

theorem freqOf_go_ne_nil (ts : List String) (acc : List (String × Nat))
    (hacc : acc ≠ []) :
    ts.foldl (fun acc t =>
      if acc.any (fun p => p.1 == t) then
        acc.map (fun p => if p.1 == t then (p.1, p.2 + 1) else p)
      else acc ++ [(t, 1)]) acc ≠ [] := by
  induction ts generalizing acc with
  | nil => simpa
  | cons t rest ih =>
    simp only [List.foldl_cons]
    apply ih
    by_cases h : acc.any (fun p => p.1 == t)
    · simp only [h, if_true]
      intro hmap
      exact hacc (List.map_eq_nil_iff.mp hmap)
    · simp [h]

theorem freqOf_ne_nil {ts : List String} (h : ts ≠ []) : freqOf ts ≠ [] := by
  match ts, h with
  | t :: rest, _ =>
    show (t :: rest).foldl _ [] ≠ []
    rw [List.foldl_cons]
    apply freqOf_go_ne_nil
    simp

theorem freqOf_go_pos (ts : List String) (acc : List (String × Nat))
    (hacc : ∀ p ∈ acc, 1 ≤ p.2) :
    ∀ p ∈ ts.foldl (fun acc t =>
      if acc.any (fun p => p.1 == t) then
        acc.map (fun p => if p.1 == t then (p.1, p.2 + 1) else p)
      else acc ++ [(t, 1)]) acc, 1 ≤ p.2 := by
  induction ts generalizing acc with
  | nil => simp only [List.foldl_nil]; exact hacc
  | cons t rest ih =>
    simp only [List.foldl_cons]
    apply ih
    by_cases h : acc.any (fun p => p.1 == t)
    · simp only [h, if_true]
      intro p hp
      obtain ⟨q, hq, hqe⟩ := List.mem_map.mp hp
      by_cases hqt : q.1 == t
      · simp only [hqt, if_true] at hqe
        subst hqe
        exact le_trans (hacc q hq) (by omega)
      · simp only [hqt, if_false] at hqe
        subst hqe
        exact hacc q hq
    · simp only [h, if_false]
      intro p hp
      rcases List.mem_append.mp hp with hp | hp
      · exact hacc p hp
      · simp only [List.mem_singleton] at hp
        subst hp
        exact le_refl 1

theorem freqOf_pos {ts : List String} : ∀ p ∈ freqOf ts, 1 ≤ p.2 :=
  freqOf_go_pos ts [] (by simp)

theorem maxFreq_ge_foldl (l : List (String × Nat)) (a : Nat) :
    a ≤ l.foldl (fun acc p => max acc p.2) a ∧
    ∀ p ∈ l, p.2 ≤ l.foldl (fun acc p => max acc p.2) a := by
  induction l generalizing a with
  | nil => simp
  | cons q rest ih =>
    simp only [List.foldl_cons]
    obtain ⟨h1, h2⟩ := ih (max a q.2)
    refine ⟨le_trans (le_max_left _ _) h1, ?_⟩
    intro p hp
    rcases List.mem_cons.mp hp with rfl | hp
    · exact le_trans (le_max_right _ _) h1
    · exact h2 p hp

theorem maxFreq_ge {freq : List (String × Nat)} :
    ∀ p ∈ freq, p.2 ≤ maxFreq freq :=
  (maxFreq_ge_foldl freq 0).2

theorem computeEmbedding_pos {text : String} :
    ∀ p ∈ computeEmbedding text, 0 < p.2 := by
  intro p hp
  simp only [computeEmbedding, List.mem_map] at hp
  obtain ⟨q, hq, rfl⟩ := hp
  have h1 : 1 ≤ q.2 := freqOf_pos q hq
  have h2 : q.2 ≤ maxFreq (freqOf (tokenize text)) := maxFreq_ge q hq
  have hm : 1 ≤ maxFreq (freqOf (tokenize text)) := le_trans h1 h2
  apply div_pos
  · exact_mod_cast h1
  · exact_mod_cast hm

theorem computeEmbedding_nonneg {text : String} :
    ∀ p ∈ computeEmbedding text, 0 ≤ p.2 :=
  fun p hp => le_of_lt (computeEmbedding_pos p hp)

theorem computeEmbedding_ne_nil {text : String} (h : tokenize text ≠ []) :
    computeEmbedding text ≠ [] := by
  simp only [computeEmbedding, ne_eq, List.map_eq_nil_iff]
  exact freqOf_ne_nil h

theorem computeEmbedding_of_tokenize_nil {text : String}
    (h : tokenize text = []) : computeEmbedding text = [] := by
  simp [computeEmbedding, freqOf, h]

/-! Positivity of the self norm and the two degenerate cosine values. -/

theorem embGet_head (k : String) (v : ℚ) (rest : Emb) :
    embGet ((k, v) :: rest) k = v := by
  simp [embGet, List.find?]

theorem embGet_nonneg {e : Emb} (h : ∀ p ∈ e, 0 ≤ p.2) (k : String) :
    0 ≤ embGet e k := by
  by_cases hz : embGet e k = 0
  · rw [hz]
  · obtain ⟨p, hp, _, hv⟩ := embGet_mem_of_ne_zero hz
    rw [← hv]
    exact h p hp

theorem normSq1_self_pos {e : Emb} (hne : e ≠ []) (hpos : ∀ p ∈ e, 0 < p.2) :
    0 < normSq1 e e := by
  obtain ⟨⟨k0, v0⟩, rest, rfl⟩ := List.exists_cons_of_ne_nil hne
  have hk0 : k0 ∈ allKeys ((k0, v0) :: rest) ((k0, v0) :: rest) :=
    mem_allKeys_left (by simp)
  have hv0 : 0 < v0 := hpos (k0, v0) (by simp)
  have hterm : embGet ((k0, v0) :: rest) k0 * embGet ((k0, v0) :: rest) k0 ∈
      (allKeys ((k0, v0) :: rest) ((k0, v0) :: rest)).map
        (fun k => embGet ((k0, v0) :: rest) k * embGet ((k0, v0) :: rest) k) :=
    List.mem_map_of_mem _ hk0
  have hle := List.single_le_sum
    (fun x (hx : x ∈ (allKeys ((k0, v0) :: rest) ((k0, v0) :: rest)).map
        (fun k => embGet ((k0, v0) :: rest) k * embGet ((k0, v0) :: rest) k)) => by
      obtain ⟨k, _, rfl⟩ := List.mem_map.mp hx
      exact mul_self_nonneg _) _ hterm
  have hpos2 : 0 < embGet ((k0, v0) :: rest) k0 * embGet ((k0, v0) :: rest) k0 := by
    rw [embGet_head]
    exact mul_pos hv0 hv0
  exact lt_of_lt_of_le hpos2 hle

theorem dotProduct_self (e : Emb) : dotProduct e e = normSq1 e e := rfl

theorem normSq2_self (e : Emb) : normSq2 e e = normSq1 e e := rfl

theorem cosineSimilarity_self_eq_one {e : Emb} (hpos : 0 < normSq1 e e) :
    cosineSimilarity e e = 1 := by
  have hne : ¬ (normSq1 e e = 0 ∨ normSq2 e e = 0) := by
    rw [normSq2_self]
    rintro (h | h) <;> exact absurd h (ne_of_gt hpos)
  rw [cosineSimilarity, if_neg hne, dotProduct_self, normSq2_self]
  have hR : (0:ℝ) < (normSq1 e e : ℝ) := by exact_mod_cast hpos
  rw [Real.mul_self_sqrt (le_of_lt hR)]
  exact div_self (ne_of_gt hR)

theorem dotProduct_eq_zero_of_disjoint {e1 e2 : Emb}
    (h : ∀ k, k ∈ e1.map (fun p => p.1) → k ∉ e2.map (fun p => p.1)) :
    dotProduct e1 e2 = 0 := by
  apply List.sum_eq_zero
  intro x hx
  obtain ⟨k, hk, rfl⟩ := List.mem_map.mp hx
  rcases mem_allKeys_iff.mp hk with h1 | h2
  · rw [embGet_eq_zero_of_not_mem (h k h1), mul_zero]
  · have : k ∉ e1.map (fun p => p.1) := fun hc => h k hc h2
    rw [embGet_eq_zero_of_not_mem this, zero_mul]

theorem cosineSimilarity_eq_zero_of_disjoint {e1 e2 : Emb}
    (h : ∀ k, k ∈ e1.map (fun p => p.1) → k ∉ e2.map (fun p => p.1)) :
    cosineSimilarity e1 e2 = 0 := by
  rw [cosineSimilarity]
  by_cases hg : normSq1 e1 e2 = 0 ∨ normSq2 e1 e2 = 0
  · rw [if_pos hg]
  · rw [if_neg hg, dotProduct_eq_zero_of_disjoint h]
    simp

theorem cosineSimilarity_swap (e1 e2 : Emb) :
    cosineSimilarity e1 e2 = cosineSimilarity e2 e1 := by
  rw [cosineSimilarity, cosineSimilarity, dotProduct_swap,
    normSq1_swap e1 e2, ← normSq1_swap e2 e1]
  by_cases hg : normSq2 e2 e1 = 0 ∨ normSq1 e2 e1 = 0
  · rw [if_pos hg, if_pos (Or.symm hg)]
  · rw [if_neg hg, if_neg (fun hc => hg (Or.symm hc)), mul_comm]

theorem normSq1_nil (e : Emb) : normSq1 [] e = 0 := by
  apply List.sum_eq_zero
  intro x hx
  obtain ⟨k, _, rfl⟩ := List.mem_map.mp hx
  rw [embGet_eq_zero_of_not_mem (by simp), mul_zero]

theorem normSq2_nil (e : Emb) : normSq2 e [] = 0 := by
  apply List.sum_eq_zero
  intro x hx
  obtain ⟨k, _, rfl⟩ := List.mem_map.mp hx
  rw [embGet_eq_zero_of_not_mem (by simp), mul_zero]

theorem cosineSimilarity_le_one (e1 e2 : Emb) : cosineSimilarity e1 e2 ≤ 1 := by
  rw [cosineSimilarity]
  by_cases hg : normSq1 e1 e2 = 0 ∨ normSq2 e1 e2 = 0
  · rw [if_pos hg]; norm_num
  · rw [if_neg hg]
    push_neg at hg
    have hn1 : 0 < normSq1 e1 e2 := lt_of_le_of_ne (normSq1_nonneg e1 e2) (Ne.symm hg.1)
    have hn2 : 0 < normSq2 e1 e2 := lt_of_le_of_ne (normSq2_nonneg e1 e2) (Ne.symm hg.2)
    have hn1R : (0:ℝ) < (normSq1 e1 e2 : ℝ) := by exact_mod_cast hn1
    have hn2R : (0:ℝ) < (normSq2 e1 e2 : ℝ) := by exact_mod_cast hn2
    have hden : (0:ℝ) < Real.sqrt (normSq1 e1 e2 : ℝ) * Real.sqrt (normSq2 e1 e2 : ℝ) :=
      mul_pos (Real.sqrt_pos.mpr hn1R) (Real.sqrt_pos.mpr hn2R)
    rw [div_le_one hden]
    have hcs : (dotProduct e1 e2 : ℝ) ^ 2 ≤
        (normSq1 e1 e2 : ℝ) * (normSq2 e1 e2 : ℝ) := by
      exact_mod_cast dotProduct_sq_le e1 e2
    calc (dotProduct e1 e2 : ℝ)
        ≤ |(dotProduct e1 e2 : ℝ)| := le_abs_self _
      _ = Real.sqrt ((dotProduct e1 e2 : ℝ) ^ 2) := (Real.sqrt_sq_eq_abs _).symm
      _ ≤ Real.sqrt ((normSq1 e1 e2 : ℝ) * (normSq2 e1 e2 : ℝ)) :=
          Real.sqrt_le_sqrt hcs
      _ = Real.sqrt (normSq1 e1 e2 : ℝ) * Real.sqrt (normSq2 e1 e2 : ℝ) :=
          Real.sqrt_mul (le_of_lt hn1R) _

theorem cosineSimilarity_nonneg {e1 e2 : Emb}
    (h1 : ∀ p ∈ e1, 0 ≤ p.2) (h2 : ∀ p ∈ e2, 0 ≤ p.2) :
    0 ≤ cosineSimilarity e1 e2 := by
  rw [cosineSimilarity]
  by_cases hg : normSq1 e1 e2 = 0 ∨ normSq2 e1 e2 = 0
  · rw [if_pos hg]
  · rw [if_neg hg]
    have hdot : 0 ≤ dotProduct e1 e2 := by
      apply List.sum_nonneg
      intro x hx
      obtain ⟨k, _, rfl⟩ := List.mem_map.mp hx
      exact mul_nonneg (embGet_nonneg h1 k) (embGet_nonneg h2 k)
    apply div_nonneg
    · exact_mod_cast hdot
    · exact mul_nonneg (Real.sqrt_nonneg _) (Real.sqrt_nonneg _)

/-! Claims C7 and C8, on SimpleEmbedding.cosineSimilarity and
SimpleEmbedding.computeEmbedding. -/

/-- C7 (amended): for sparse vectors with non-negative entries — the
entries every vectorization produces — cosineSimilarity lies in [0,1]
(for arbitrary entries only the upper bound survives, see the
counterexample); it is exactly 0 whenever either norm is 0; vectorizing
untokenizable (empty or whitespace-only) text gives the empty mapping
and similarity against an empty mapping is 0; and the division is only
taken with a non-zero divisor. -/
theorem claim_C7 :
    (∀ e1 e2 : Emb, (∀ p ∈ e1, 0 ≤ p.2) → (∀ p ∈ e2, 0 ≤ p.2) →
      0 ≤ cosineSimilarity e1 e2 ∧ cosineSimilarity e1 e2 ≤ 1) ∧
    (∀ e1 e2 : Emb, normSq1 e1 e2 = 0 ∨ normSq2 e1 e2 = 0 →
      cosineSimilarity e1 e2 = 0) ∧
    (∀ text : String, tokenize text = [] → computeEmbedding text = []) ∧
    (∀ e : Emb, cosineSimilarity [] e = 0 ∧ cosineSimilarity e [] = 0) ∧
    (∀ e1 e2 : Emb, normSq1 e1 e2 ≠ 0 → normSq2 e1 e2 ≠ 0 →
      Real.sqrt (normSq1 e1 e2 : ℝ) * Real.sqrt (normSq2 e1 e2 : ℝ) ≠ 0) := by
  refine ⟨?_, ?_, ?_, ?_, ?_⟩
  · intro e1 e2 h1 h2
    exact ⟨cosineSimilarity_nonneg h1 h2, cosineSimilarity_le_one e1 e2⟩
  · intro e1 e2 hg
    rw [cosineSimilarity, if_pos hg]
  · intro text h
    exact computeEmbedding_of_tokenize_nil h
  · intro e
    constructor
    · rw [cosineSimilarity, if_pos (Or.inl (normSq1_nil e))]
    · rw [cosineSimilarity, if_pos (Or.inr (normSq2_nil e))]
  · intro e1 e2 h1 h2
    have hn1 : 0 < normSq1 e1 e2 := lt_of_le_of_ne (normSq1_nonneg e1 e2) (Ne.symm h1)
    have hn2 : 0 < normSq2 e1 e2 := lt_of_le_of_ne (normSq2_nonneg e1 e2) (Ne.symm h2)
    apply mul_ne_zero
    · exact ne_of_gt (Real.sqrt_pos.mpr (by exact_mod_cast hn1))
    · exact ne_of_gt (Real.sqrt_pos.mpr (by exact_mod_cast hn2))

/-- C7 counterexample: the claim quantifies over every pair of sparse
vectors, but on a vector with a negative entry (reachable through
`import`, whose snapshot embeddings are stored verbatim and then
scored by search) the cosine is negative, outside [0,1]. -/
theorem claim_C7_counterexample :
    cosineSimilarity [("x", 1)] [("x", -1)] < 0 := by
  have hn1 : normSq1 [("x", (1:ℚ))] [("x", (-1:ℚ))] = 1 := by
    simp [normSq1, allKeys, dedupFirst, embGet, List.find?]
  have hn2 : normSq2 [("x", (1:ℚ))] [("x", (-1:ℚ))] = 1 := by
    simp [normSq2, allKeys, dedupFirst, embGet, List.find?]
  have hd : dotProduct [("x", (1:ℚ))] [("x", (-1:ℚ))] = -1 := by
    simp [dotProduct, allKeys, dedupFirst, embGet, List.find?]
  rw [cosineSimilarity, if_neg (by rw [hn1, hn2]; norm_num), hd, hn1, hn2]
  norm_num

/-- C7 witness: the amended claim applied at concrete inputs. -/
theorem claim_C7_witness :
    (0 ≤ cosineSimilarity [("x", 1)] [("x", 1)] ∧
      cosineSimilarity [("x", 1)] [("x", 1)] ≤ 1) ∧
    computeEmbedding "   " = [] ∧
    Real.sqrt (normSq1 [("x", 1)] [("x", 1)] : ℝ) *
      Real.sqrt (normSq2 [("x", 1)] [("x", 1)] : ℝ) ≠ 0 := by
  have hn1 : normSq1 [("x", (1:ℚ))] [("x", (1:ℚ))] = 1 := by
    simp [normSq1, allKeys, dedupFirst, embGet, List.find?]
  have hn2 : normSq2 [("x", (1:ℚ))] [("x", (1:ℚ))] = 1 := by
    simp [normSq2, allKeys, dedupFirst, embGet, List.find?]
  refine ⟨claim_C7.1 _ _ ?_ ?_, claim_C7.2.2.1 "   " (by decide),
    claim_C7.2.2.2.2 _ _ (by rw [hn1]; norm_num) (by rw [hn2]; norm_num)⟩
  · intro p hp
    rw [List.mem_singleton.mp hp]
    norm_num
  · intro p hp
    rw [List.mem_singleton.mp hp]
    norm_num

/-- C8: cosine similarity of the vectorization of a tokenizable text
with itself is exactly 1; the similarity of two vectors sharing no
tokens is exactly 0; and cosine similarity is symmetric. -/
theorem claim_C8 :
    (∀ text : String, tokenize text ≠ [] →
      cosineSimilarity (computeEmbedding text) (computeEmbedding text) = 1) ∧
    (∀ e1 e2 : Emb,
      (∀ k, k ∈ e1.map (fun p => p.1) → k ∉ e2.map (fun p => p.1)) →
      cosineSimilarity e1 e2 = 0) ∧
    (∀ e1 e2 : Emb, cosineSimilarity e1 e2 = cosineSimilarity e2 e1) := by
  refine ⟨?_, ?_, ?_⟩
  · intro text h
    exact cosineSimilarity_self_eq_one
      (normSq1_self_pos (computeEmbedding_ne_nil h) computeEmbedding_pos)
  · intro e1 e2 h
    exact cosineSimilarity_eq_zero_of_disjoint h
  · intro e1 e2
    exact cosineSimilarity_swap e1 e2

/-- C8 witness: the claim applied at concrete inputs. -/
theorem claim_C8_witness :
    cosineSimilarity (computeEmbedding "apple banana")
      (computeEmbedding "apple banana") = 1 ∧
    cosineSimilarity [("aa", 1)] [("bb", 1)] = 0 := by
  refine ⟨claim_C8.1 "apple banana" (by decide), claim_C8.2.1 _ _ ?_⟩
  intro k hk
  rw [show ([(("aa":String), (1:ℚ))].map (fun p => p.1)) = ["aa"] from rfl] at hk
  rw [show ([(("bb":String), (1:ℚ))].map (fun p => p.1)) = ["bb"] from rfl]
  rw [List.mem_singleton.mp hk]
  decide

/-! Structural lemmas about the record collection. -/

theorem mapSet_length_present {l : List (String × Memory)} {k : String}
    (v : Memory) (h : l.any (fun p => p.1 == k)) :
    (mapSet l k v).length = l.length := by
  simp [mapSet, h]

theorem mapSet_length_absent {l : List (String × Memory)} {k : String}
    (v : Memory) (h : ¬ l.any (fun p => p.1 == k)) :
    (mapSet l k v).length = l.length + 1 := by
  simp [mapSet, h]

theorem mapErase_length_lt {l : List (String × Memory)} {k : String}
    {m : Memory} (h : (k, m) ∈ l) : (mapErase l k).length < l.length := by
  induction l with
  | nil => cases h
  | cons q rest ih =>
    by_cases hq : q.1 == k
    · have hq2 : q.1 = k := beq_iff_eq.mp hq
      have he : mapErase (q :: rest) k = mapErase rest k := by
        simp [mapErase, List.filter_cons, hq2]
      rw [he]
      have hle : (mapErase rest k).length ≤ rest.length :=
        List.length_filter_le _ _
      simp only [List.length_cons]
      omega
    · have hq2 : ¬ q.1 = k := fun hc => hq (beq_iff_eq.mpr hc)
      have he : mapErase (q :: rest) k = q :: mapErase rest k := by
        simp [mapErase, List.filter_cons, hq2]
      have hmem : (k, m) ∈ rest := by
        rcases List.mem_cons.mp h with rfl | h2
        · simp at hq
        · exact h2
      rw [he]
      simp only [List.length_cons]
      exact Nat.succ_lt_succ (ih hmem)

theorem mapGet_mapErase (l : List (String × Memory)) (k : String) :
    mapGet (mapErase l k) k = none := by
  have hfind : (mapErase l k).find? (fun p => p.1 == k) = none := by
    rw [List.find?_eq_none]
    intro p hp
    have := List.of_mem_filter hp
    simpa using this
  simp [mapGet, hfind]

theorem mapGet_isSome_iff {l : List (String × Memory)} {k : String} :
    (mapGet l k).isSome = l.any (fun p => p.1 == k) := by
  induction l with
  | nil => rfl
  | cons q rest ih =>
    rw [List.any_cons]
    by_cases hq : q.1 == k
    · simp [mapGet, List.find?_cons, hq]
    · simp only [mapGet, List.find?_cons, hq, cond_false, Bool.false_or] at ih ⊢
      exact ih

theorem evictOldest_nextId (s : Mem0) : (evictOldest s).nextId = s.nextId := by
  unfold evictOldest
  rcases oldestEntry s.memories with _ | ⟨k, t⟩
  · rfl
  · by_cases hk : k = "" <;> simp [hk]

theorem evictOldest_config (s : Mem0) : (evictOldest s).config = s.config := by
  unfold evictOldest
  rcases oldestEntry s.memories with _ | ⟨k, t⟩
  · rfl
  · by_cases hk : k = "" <;> simp [hk]

/-- The fold of evictOldest yields an entry of the list together with
its parsed time. -/
theorem oldestEntry_mem {entries : List (String × Memory)} {k : String} {t : Nat}
    (h : oldestEntry entries = some (k, t)) :
    ∃ m, (k, m) ∈ entries ∧ memTime m = some t := by
  suffices hgen : ∀ (l : List (String × Memory)) (acc : Option (String × Nat)),
      (∀ k0 t0, acc = some (k0, t0) → ∃ m, (k0, m) ∈ entries ∧ memTime m = some t0) →
      (∀ p ∈ l, p ∈ entries) →
      ∀ k1 t1,
        l.foldl (fun acc p =>
          match memTime p.2 with
          | none => acc
          | some t =>
            match acc with
            | none => some (p.1, t)
            | some (k0, t0) => if t < t0 then (some (p.1, t)) else some (k0, t0)) acc
          = some (k1, t1) →
        ∃ m, (k1, m) ∈ entries ∧ memTime m = some t1 by
    exact hgen entries none (by simp) (fun p hp => hp) k t h
  intro l
  induction l with
  | nil =>
    intro acc hacc _ k1 t1 hfold
    exact hacc k1 t1 hfold
  | cons q rest ih =>
    intro acc hacc hsub k1 t1 hfold
    simp only [List.foldl_cons] at hfold
    apply ih _ _ (fun p hp => hsub p (List.mem_cons_of_mem q hp)) k1 t1 hfold
    intro k0 t0 hstep
    rcases hq : memTime q.2 with _ | tq
    · rw [hq] at hstep
      exact hacc k0 t0 hstep
    · rw [hq] at hstep
      rcases acc with _ | ⟨ka, ta⟩
      · simp only at hstep
        obtain ⟨h1, h2⟩ := Prod.mk.injEq .. ▸ (Option.some.injEq _ _ ▸ hstep)
        refine ⟨q.2, ?_, by rw [hq, h2]⟩
        have : q ∈ q :: rest := List.mem_cons_self q rest
        simpa [← h1] using hsub q this
      · simp only at hstep
        by_cases hlt : tq < ta
        · rw [if_pos hlt] at hstep
          obtain ⟨h1, h2⟩ := Prod.mk.injEq .. ▸ (Option.some.injEq _ _ ▸ hstep)
          refine ⟨q.2, ?_, by rw [hq, h2]⟩
          have : q ∈ q :: rest := List.mem_cons_self q rest
          simpa [← h1] using hsub q this
        · rw [if_neg hlt] at hstep
          exact hacc k0 t0 hstep

/-- The fold of evictOldest finds the globally smallest parsed time. -/
theorem oldestEntry_min {entries : List (String × Memory)} {k : String} {t : Nat}
    (h : oldestEntry entries = some (k, t)) :
    ∀ p ∈ entries, ∀ t2, memTime p.2 = some t2 → t ≤ t2 := by
  suffices hgen : ∀ (l : List (String × Memory)) (acc : Option (String × Nat)) k1 t1,
      l.foldl (fun acc p =>
        match memTime p.2 with
        | none => acc
        | some t =>
          match acc with
          | none => some (p.1, t)
          | some (k0, t0) => if t < t0 then (some (p.1, t)) else some (k0, t0)) acc
        = some (k1, t1) →
      (∀ p ∈ l, ∀ t2, memTime p.2 = some t2 → t1 ≤ t2) ∧
      (∀ k0 t0, acc = some (k0, t0) → t1 ≤ t0) by
    exact (hgen entries none k t h).1
  intro l
  induction l with
  | nil =>
    intro acc k1 t1 hfold
    refine ⟨by simp, ?_⟩
    intro k0 t0 hacc
    rw [hacc] at hfold
    cases hfold
    exact le_refl _
  | cons q rest ih =>
    intro acc k1 t1 hfold
    simp only [List.foldl_cons] at hfold
    rcases hq : memTime q.2 with _ | tq
    · rw [hq] at hfold
      obtain ⟨hrest, hacc⟩ := ih acc k1 t1 hfold
      refine ⟨?_, hacc⟩
      intro p hp t2 ht2
      rcases List.mem_cons.mp hp with rfl | hp
      · rw [hq] at ht2; cases ht2
      · exact hrest p hp t2 ht2
    · rw [hq] at hfold
      rcases acc with _ | ⟨ka, ta⟩
      · simp only at hfold
        obtain ⟨hrest, hacc⟩ := ih (some (q.1, tq)) k1 t1 hfold
        have hq1 : t1 ≤ tq := hacc q.1 tq rfl
        refine ⟨?_, by simp⟩
        intro p hp t2 ht2
        rcases List.mem_cons.mp hp with rfl | hp
        · rw [hq] at ht2
          cases ht2
          exact hq1
        · exact hrest p hp t2 ht2
      · simp only at hfold
        by_cases hlt : tq < ta
        · rw [if_pos hlt] at hfold
          obtain ⟨hrest, hacc⟩ := ih (some (q.1, tq)) k1 t1 hfold
          have hq1 : t1 ≤ tq := hacc q.1 tq rfl
          refine ⟨?_, ?_⟩
          · intro p hp t2 ht2
            rcases List.mem_cons.mp hp with rfl | hp
            · rw [hq] at ht2
              cases ht2
              exact hq1
            · exact hrest p hp t2 ht2
          · intro k0 t0 heq
            cases heq
            exact le_trans hq1 (le_of_lt hlt)
        · rw [if_neg hlt] at hfold
          obtain ⟨hrest, hacc⟩ := ih (some (ka, ta)) k1 t1 hfold
          have hta : t1 ≤ ta := hacc ka ta rfl
          refine ⟨?_, ?_⟩
          · intro p hp t2 ht2
            rcases List.mem_cons.mp hp with rfl | hp
            · rw [hq] at ht2
              cases ht2
              exact le_trans hta (not_lt.mp hlt)
            · exact hrest p hp t2 ht2
          · intro k0 t0 heq
            cases heq
            exact hta

/-- The fold of evictOldest finds an entry whenever some record has a
parseable timestamp. -/
theorem oldestEntry_isSome {entries : List (String × Memory)} {p0 : String × Memory}
    (hp0 : p0 ∈ entries) (ht0 : (memTime p0.2).isSome) :
    (oldestEntry entries).isSome := by
  suffices hgen : ∀ (l : List (String × Memory)) (acc : Option (String × Nat)),
      (p0 ∈ l ∨ acc.isSome) →
      (l.foldl (fun acc p =>
        match memTime p.2 with
        | none => acc
        | some t =>
          match acc with
          | none => some (p.1, t)
          | some (k0, t0) => if t < t0 then (some (p.1, t)) else some (k0, t0)) acc).isSome by
    exact hgen entries none (Or.inl hp0)
  intro l
  induction l with
  | nil =>
    intro acc hor
    rcases hor with h | h
    · cases h
    · exact h
  | cons q rest ih =>
    intro acc hor
    simp only [List.foldl_cons]
    apply ih
    rcases hor with hmem | hsome
    · rcases List.mem_cons.mp hmem with rfl | hmem
      · right
        rcases hq : memTime p0.2 with _ | tq
        · rw [hq] at ht0; cases ht0
        · rcases acc with _ | ⟨ka, ta⟩
          · simp
          · simp only
            by_cases hlt : tq < ta <;> simp [hlt]
      · exact Or.inl hmem
    · right
      rcases hq : memTime q.2 with _ | tq
      · exact hsome
      · rcases acc with _ | ⟨ka, ta⟩
        · simp
        · simp only
          by_cases hlt : tq < ta <;> simp [hlt]

/-- The fresh id of an add is never the empty string. -/
theorem memId_ne_empty (n : Nat) : "mem_" ++ toString n ≠ "" := by
  intro h
  have h2 : ("mem_" ++ toString n).length = 0 := by rw [h]; rfl
  rw [String.length_append] at h2
  have h3 : "mem_".length = 4 := rfl
  omega

/-! Concrete evaluations shared by several claims: a store built by
adding "aa", merging a second "aa" into it, repairing it through
update, and adding "bb". -/

theorem embedding_aa : computeEmbedding "aa" = [("aa", 1)] := by
  have h : freqOf (tokenize "aa") = [("aa", 1)] := by decide
  simp [computeEmbedding, h, maxFreq]

theorem embedding_bb : computeEmbedding "bb" = [("bb", 1)] := by
  have h : freqOf (tokenize "bb") = [("bb", 1)] := by decide
  simp [computeEmbedding, h, maxFreq]

theorem cosineSq_aa_self : cosineSq [("aa", (1:ℚ))] [("aa", (1:ℚ))] = 1 := by
  have hn1 : normSq1 [("aa", (1:ℚ))] [("aa", (1:ℚ))] = 1 := by
    simp [normSq1, allKeys, dedupFirst, embGet, List.find?]
  have hd : dotProduct [("aa", (1:ℚ))] [("aa", (1:ℚ))] = 1 := by
    simp [dotProduct, allKeys, dedupFirst, embGet, List.find?]
  rw [cosineSq, if_neg (by rw [hn1, normSq2_self, hn1]; norm_num), hd, hn1,
    normSq2_self, hn1]
  simp [sgnSq]

theorem cosineSq_bb_aa : cosineSq [("bb", (1:ℚ))] [("aa", (1:ℚ))] = 0 := by
  have hn1 : normSq1 [("bb", (1:ℚ))] [("aa", (1:ℚ))] = 1 := by
    simp [normSq1, allKeys, dedupFirst, embGet, List.find?]
  have hn2 : normSq2 [("bb", (1:ℚ))] [("aa", (1:ℚ))] = 1 := by
    simp [normSq2, allKeys, dedupFirst, embGet, List.find?]
  have hd : dotProduct [("bb", (1:ℚ))] [("aa", (1:ℚ))] = 0 := by
    simp [dotProduct, allKeys, dedupFirst, embGet, List.find?]
  rw [cosineSq, if_neg (by rw [hn1, hn2]; norm_num), hd, hn1, hn2]
  simp [sgnSq]

theorem sgnSq_defaultThreshold_lt_one : sgnSq ((7:ℚ)/10) < 1 := by
  rw [sgnSq, abs_of_nonneg (by norm_num : (0:ℚ) ≤ 7/10)]
  norm_num

theorem add_aa_eval : addFn 0 (mkMem0 {}) "aa" [] =
    (some "mem_1",
     ⟨[("mem_1", ⟨"mem_1", "aa", [("timestamp", Value.vNat 0)], some [("aa", 1)], []⟩)],
      ⟨1000, 7/10, false, 30⟩, 2⟩) := by
  have hid : "mem_" ++ toString 1 = "mem_1" := by decide
  simp [addFn, findSimilarFn, searchFn, searchGo, mkMem0, mkMemory, objMerge,
    mdLookup, tagsOf, mapSet, embedding_aa, orDefaultNat, orDefaultQ, hid]

theorem add_aa_merge_eval :
    addFn 1 (⟨[("mem_1", ⟨"mem_1", "aa", [("timestamp", Value.vNat 0)],
        some [("aa", 1)], []⟩)], ⟨1000, 7/10, false, 30⟩, 2⟩ : Mem0) "aa" [] =
    (some "mem_1",
     ⟨[("mem_1", ⟨"mem_1", "aa",
        [("timestamp", Value.vNat 0), ("lastUpdated", Value.vNat 1)], none, []⟩)],
      ⟨1000, 7/10, false, 30⟩, 3⟩) := by
  have hid2 : "mem_" ++ toString 2 = "mem_2" := by decide
  simp [addFn, findSimilarFn, searchFn, searchGo, mkMemory, objMerge,
    mdLookup, tagsOf, mapSet, embedding_aa, cosineSq_aa_self, updateContent,
    setKey, sgnSq_defaultThreshold_lt_one, hid2, List.mergeSort]

theorem update_aa_eval :
    updateFn 2 (⟨[("mem_1", ⟨"mem_1", "aa",
        [("timestamp", Value.vNat 0), ("lastUpdated", Value.vNat 1)], none, []⟩)],
      ⟨1000, 7/10, false, 30⟩, 3⟩ : Mem0) "mem_1" "aa" [] =
    (some ⟨"mem_1", "aa",
        [("timestamp", Value.vNat 0), ("lastUpdated", Value.vNat 2)],
        some [("aa", 1)], []⟩,
     ⟨[("mem_1", ⟨"mem_1", "aa",
        [("timestamp", Value.vNat 0), ("lastUpdated", Value.vNat 2)],
        some [("aa", 1)], []⟩)],
      ⟨1000, 7/10, false, 30⟩, 3⟩) := by
  simp [updateFn, mapGet, mapSet, updateContent, setKey, objMerge, mdLookup,
    List.find?, embedding_aa]

theorem add_bb_eval :
    addFn 3 (⟨[("mem_1", ⟨"mem_1", "aa",
        [("timestamp", Value.vNat 0), ("lastUpdated", Value.vNat 2)],
        some [("aa", 1)], []⟩)], ⟨1000, 7/10, false, 30⟩, 3⟩ : Mem0) "bb" [] =
    (some "mem_3",
     ⟨[("mem_1", ⟨"mem_1", "aa",
        [("timestamp", Value.vNat 0), ("lastUpdated", Value.vNat 2)],
        some [("aa", 1)], []⟩),
       ("mem_3", ⟨"mem_3", "bb", [("timestamp", Value.vNat 3)],
        some [("bb", 1)], []⟩)],
      ⟨1000, 7/10, false, 30⟩, 4⟩) := by
  have hid3 : "mem_" ++ toString 3 = "mem_3" := by decide
  simp [addFn, findSimilarFn, searchFn, searchGo, mkMemory, objMerge,
    mdLookup, tagsOf, mapSet, embedding_bb, cosineSq_bb_aa, updateContent,
    setKey, hid3, List.mergeSort]

/-! Claims C10, C1 and C4, on Mem0.add and Mem0.search. -/

/-- C10: every call to add advances the id counter by exactly one —
the post-increment happens before the duplicate check, so merge calls
(and calls that throw inside findSimilar) advance it too — and the ids
of stored records need not be contiguous: adding "aa", adding "aa"
again (a merge returning mem_1), repairing the nulled vector through
update, then adding "bb" leaves the store holding mem_1 and mem_3. -/
theorem claim_C10 :
    (∀ (now : Nat) (s : Mem0) (content : String) (metadata : Metadata),
      ((addFn now s content metadata).2).nextId = s.nextId + 1) ∧
    ((addFn 3 (updateFn 2 (addFn 1 (addFn 0 (mkMem0 {}) "aa" []).2 "aa" []).2
        "mem_1" "aa" []).2 "bb" []).2.memories.map (fun p => p.1) =
      ["mem_1", "mem_3"]) := by
  constructor
  · intro now s content metadata
    unfold addFn
    simp only []
    split
    · rfl
    · split
      · split
        · rfl
        · split
          · exact evictOldest_nextId _
          · rfl
      · split
        · exact evictOldest_nextId _
        · rfl
  · rw [add_aa_eval]
    rw [show ((some "mem_1",
        (⟨[("mem_1", ⟨"mem_1", "aa", [("timestamp", Value.vNat 0)],
          some [("aa", 1)], []⟩)], ⟨1000, 7/10, false, 30⟩, 2⟩ : Mem0))).2 =
        (⟨[("mem_1", ⟨"mem_1", "aa", [("timestamp", Value.vNat 0)],
          some [("aa", 1)], []⟩)], ⟨1000, 7/10, false, 30⟩, 2⟩ : Mem0) from rfl]
    rw [add_aa_merge_eval]
    rw [show ((some "mem_1",
        (⟨[("mem_1", ⟨"mem_1", "aa",
          [("timestamp", Value.vNat 0), ("lastUpdated", Value.vNat 1)], none, []⟩)],
          ⟨1000, 7/10, false, 30⟩, 3⟩ : Mem0))).2 =
        (⟨[("mem_1", ⟨"mem_1", "aa",
          [("timestamp", Value.vNat 0), ("lastUpdated", Value.vNat 1)], none, []⟩)],
          ⟨1000, 7/10, false, 30⟩, 3⟩ : Mem0) from rfl]
    rw [update_aa_eval]
    rw [show ((some (⟨"mem_1", "aa",
          [("timestamp", Value.vNat 0), ("lastUpdated", Value.vNat 2)],
          some [("aa", 1)], []⟩ : Memory),
        (⟨[("mem_1", ⟨"mem_1", "aa",
          [("timestamp", Value.vNat 0), ("lastUpdated", Value.vNat 2)],
          some [("aa", 1)], []⟩)], ⟨1000, 7/10, false, 30⟩, 3⟩ : Mem0))).2 =
        (⟨[("mem_1", ⟨"mem_1", "aa",
          [("timestamp", Value.vNat 0), ("lastUpdated", Value.vNat 2)],
          some [("aa", 1)], []⟩)], ⟨1000, 7/10, false, 30⟩, 3⟩ : Mem0) from rfl]
    rw [add_bb_eval]
    rfl

/-- C1 evaluated at the failing input (code bug).  Adding "aa" to a
store already holding "aa": the merge keeps the record count at one,
replaces the content, shallow-merges the metadata (new key `note`
appended), stamps lastUpdated, and returns the existing id mem_1 — but
the merged record is left with `embeddings = none` instead of the
recomputed vector `[("aa", 1)]` (Memory.updateContent nulls it and the
merge branch of Mem0.add, unlike Mem0.update, never recomputes). -/
theorem claim_C1 :
    addFn 1 (⟨[("mem_1", ⟨"mem_1", "aa", [("timestamp", Value.vNat 0)],
        some [("aa", 1)], []⟩)], ⟨1000, 7/10, false, 30⟩, 2⟩ : Mem0) "aa"
      [("note", Value.vStr "v2")] =
    (some "mem_1",
     ⟨[("mem_1", ⟨"mem_1", "aa",
        [("timestamp", Value.vNat 0), ("lastUpdated", Value.vNat 1),
         ("note", Value.vStr "v2")], none, []⟩)],
      ⟨1000, 7/10, false, 30⟩, 3⟩) ∧
    (addFn 0 (mkMem0 {}) "aa" []).2 =
      (⟨[("mem_1", ⟨"mem_1", "aa", [("timestamp", Value.vNat 0)],
        some [("aa", 1)], []⟩)], ⟨1000, 7/10, false, 30⟩, 2⟩ : Mem0) ∧
    computeEmbedding "aa" = [("aa", 1)] := by
  refine ⟨?_, by rw [add_aa_eval], embedding_aa⟩
  have hid2 : "mem_" ++ toString 2 = "mem_2" := by decide
  simp [addFn, findSimilarFn, searchFn, searchGo, mkMemory, objMerge,
    mdLookup, tagsOf, mapSet, embedding_aa, cosineSq_aa_self, updateContent,
    setKey, sgnSq_defaultThreshold_lt_one, hid2, List.mergeSort]

/-- C4 evaluated at the failing input (code bug).  On the reachable
store produced by adding "aa" twice (the second add merges and nulls
the stored vector), search throws — `Object.keys(null)` inside
cosineSimilarity, modelled as `none` — and a further add throws inside
findSimilar as well, mutating only the id counter. -/
theorem claim_C4 :
    searchFn (⟨[("mem_1", ⟨"mem_1", "aa",
        [("timestamp", Value.vNat 0), ("lastUpdated", Value.vNat 1)], none, []⟩)],
      ⟨1000, 7/10, false, 30⟩, 3⟩ : Mem0) "aa" 10 = none ∧
    addFn 2 (⟨[("mem_1", ⟨"mem_1", "aa",
        [("timestamp", Value.vNat 0), ("lastUpdated", Value.vNat 1)], none, []⟩)],
      ⟨1000, 7/10, false, 30⟩, 3⟩ : Mem0) "zz" [] =
    (none,
     ⟨[("mem_1", ⟨"mem_1", "aa",
        [("timestamp", Value.vNat 0), ("lastUpdated", Value.vNat 1)], none, []⟩)],
      ⟨1000, 7/10, false, 30⟩, 4⟩) ∧
    (addFn 1 (addFn 0 (mkMem0 {}) "aa" []).2 "aa" []).2 =
      (⟨[("mem_1", ⟨"mem_1", "aa",
        [("timestamp", Value.vNat 0), ("lastUpdated", Value.vNat 1)], none, []⟩)],
      ⟨1000, 7/10, false, 30⟩, 3⟩ : Mem0) := by
  refine ⟨rfl, ?_, ?_⟩
  · simp [addFn, findSimilarFn, searchFn, searchGo]
  · rw [add_aa_eval]
    rw [show ((some "mem_1",
        (⟨[("mem_1", ⟨"mem_1", "aa", [("timestamp", Value.vNat 0)],
          some [("aa", 1)], []⟩)], ⟨1000, 7/10, false, 30⟩, 2⟩ : Mem0))).2 =
        (⟨[("mem_1", ⟨"mem_1", "aa", [("timestamp", Value.vNat 0)],
          some [("aa", 1)], []⟩)], ⟨1000, 7/10, false, 30⟩, 2⟩ : Mem0) from rfl]
    rw [add_aa_merge_eval]

/-! Claim C9, on Mem0.update and Mem0.delete. -/

/-- C9: update fails with NotFound exactly when the id is absent (and
then leaves the store unchanged); otherwise it replaces the content,
shallow-merges the metadata over the lastUpdated-stamped metadata,
recomputes the vector, updates only the addressed entry in place
(no dedup or merge logic: the collection size, every other record and
the id counter are untouched); delete returns true exactly when the id
was present, never failing, and a get after a delete of the same id is
absent. -/
theorem claim_C9 :
    (∀ (now : Nat) (s : Mem0) (id content : String) (md : Metadata),
      ((updateFn now s id content md).1 = none ↔ mapGet s.memories id = none)) ∧
    (∀ (now : Nat) (s : Mem0) (id content : String) (md : Metadata),
      mapGet s.memories id = none → updateFn now s id content md = (none, s)) ∧
    (∀ (now : Nat) (s : Mem0) (id content : String) (md : Metadata) (m : Memory),
      mapGet s.memories id = some m →
      updateFn now s id content md =
        (some (updatedMem now m content md),
         { s with memories := mapSet s.memories id (updatedMem now m content md) }) ∧
      ((updateFn now s id content md).2).memories.length = s.memories.length ∧
      ((updateFn now s id content md).2).nextId = s.nextId ∧
      ((updateFn now s id content md).2).config = s.config ∧
      (∀ p ∈ s.memories, ¬ (p.1 == id) →
        p ∈ ((updateFn now s id content md).2).memories)) ∧
    (∀ (s : Mem0) (id : String),
      ((deleteFn s id).1 = true ↔ (mapGet s.memories id).isSome) ∧
      (deleteFn s id).2 = { s with memories := mapErase s.memories id }) ∧
    (∀ (s : Mem0) (id : String), getFn (deleteFn s id).2 id = none) := by
  refine ⟨?_, ?_, ?_, ?_, ?_⟩
  · intro now s id content md
    rcases h : mapGet s.memories id with _ | m
    · simp [updateFn, h]
    · simp [updateFn, h]
  · intro now s id content md h
    simp [updateFn, h]
  · intro now s id content md m h
    have heq : updateFn now s id content md =
        (some (updatedMem now m content md),
         { s with memories := mapSet s.memories id (updatedMem now m content md) }) := by
      simp [updateFn, h, updateContent, updatedMem]
    have hany : s.memories.any (fun p => p.1 == id) = true := by
      rw [← mapGet_isSome_iff, h]
      rfl
    refine ⟨heq, ?_, ?_, ?_, ?_⟩
    · rw [heq]
      exact mapSet_length_present _ hany
    · rw [heq]
    · rw [heq]
    · intro p hp hpne
      rw [heq]
      simp only [mapSet, hany, if_true]
      have hmap : (if p.1 == id then (p.1, updatedMem now m content md) else p)
          = p := by
        rw [if_neg hpne]
      exact hmap ▸ List.mem_map_of_mem _ hp
  · intro s id
    constructor
    · rw [deleteFn]
      simp only []
      rw [← mapGet_isSome_iff]
    · rfl
  · intro s id
    exact mapGet_mapErase s.memories id

/-- C9 witness: the claim applied on the concrete one-record store
built by adding "aa", at the present id mem_1 and the absent id zz. -/
theorem claim_C9_witness :
    updateFn 5 (⟨[("mem_1", ⟨"mem_1", "aa", [("timestamp", Value.vNat 0)],
        some [("aa", 1)], []⟩)], ⟨1000, 7/10, false, 30⟩, 2⟩ : Mem0) "zz" "bb" []
      = (none, ⟨[("mem_1", ⟨"mem_1", "aa", [("timestamp", Value.vNat 0)],
        some [("aa", 1)], []⟩)], ⟨1000, 7/10, false, 30⟩, 2⟩) ∧
    (updateFn 5 (⟨[("mem_1", ⟨"mem_1", "aa", [("timestamp", Value.vNat 0)],
        some [("aa", 1)], []⟩)], ⟨1000, 7/10, false, 30⟩, 2⟩ : Mem0) "mem_1" "bb" []).1
      = some (updatedMem 5 (⟨"mem_1", "aa", [("timestamp", Value.vNat 0)],
          some [("aa", 1)], []⟩ : Memory) "bb" []) := by
  constructor
  · exact claim_C9.2.1 5 _ "zz" "bb" [] (by rfl)
  · rw [(claim_C9.2.2.1 5 _ "mem_1" "bb" []
      (⟨"mem_1", "aa", [("timestamp", Value.vNat 0)], some [("aa", 1)], []⟩ : Memory)
      (by rfl)).1]

/-! Claim C5, on Mem0.import failure atomicity. -/

/-- C5 (amended): import returns the failure flag both when the
snapshot cannot be parsed and when it lacks the required structure, but
the store is left exactly as it was only in the parse-failure case; on
a parsed snapshot without a usable `memories` collection the failure is
reported only after the record collection has been cleared and the
configuration and id counter overwritten (the partial mutation the spec
flags as an open question). -/
theorem claim_C5 :
    (∀ (now : Nat) (s : Mem0), importFn now s none = (false, s)) ∧
    (∀ (now : Nat) (s : Mem0) (d : ImportData), d.memories = none →
      importFn now s (some d) =
        (false, { s with
            memories := []
            config := applyPatch s.config (d.config.getD {})
            nextId := match d.nextId with
              | some n => if n = 0 then 1 else n
              | none => 1 })) := by
  constructor
  · intro now s
    rfl
  · intro now s d h
    simp [importFn, h]

/-- C5 witness: both branches of the amended claim at concrete inputs. -/
theorem claim_C5_witness :
    importFn 0 (mkMem0 {}) none = (false, mkMem0 {}) ∧
    importFn 0 (mkMem0 {}) (some {}) =
      (false, { mkMem0 {} with
          memories := []
          config := applyPatch (mkMem0 {}).config (({} : ImportData).config.getD {})
          nextId := match ({} : ImportData).nextId with
            | some n => if n = 0 then 1 else n
            | none => 1 }) :=
  ⟨claim_C5.1 0 (mkMem0 {}), claim_C5.2 0 (mkMem0 {}) {} rfl⟩

/-- C5 counterexample: on the reachable one-record store, importing the
parseable but structurally invalid snapshot `\x7b\x7d` returns failure
with the record collection cleared and the id counter reset — not the
unchanged store the claim requires. -/
theorem claim_C5_counterexample :
    (importFn 5 (⟨[("mem_1", ⟨"mem_1", "aa", [("timestamp", Value.vNat 0)],
        some [("aa", 1)], []⟩)], ⟨1000, 7/10, false, 30⟩, 2⟩ : Mem0) (some {})).1
      = false ∧
    (importFn 5 (⟨[("mem_1", ⟨"mem_1", "aa", [("timestamp", Value.vNat 0)],
        some [("aa", 1)], []⟩)], ⟨1000, 7/10, false, 30⟩, 2⟩ : Mem0) (some {})).2.memories
      = [] ∧
    (importFn 5 (⟨[("mem_1", ⟨"mem_1", "aa", [("timestamp", Value.vNat 0)],
        some [("aa", 1)], []⟩)], ⟨1000, 7/10, false, 30⟩, 2⟩ : Mem0) (some {})).2.nextId
      = 1 ∧
    (⟨[("mem_1", ⟨"mem_1", "aa", [("timestamp", Value.vNat 0)],
        some [("aa", 1)], []⟩)], ⟨1000, 7/10, false, 30⟩, 2⟩ : Mem0).memories ≠ [] ∧
    (⟨[("mem_1", ⟨"mem_1", "aa", [("timestamp", Value.vNat 0)],
        some [("aa", 1)], []⟩)], ⟨1000, 7/10, false, 30⟩, 2⟩ : Mem0).nextId = 2 ∧
    (addFn 0 (mkMem0 {}) "aa" []).2 =
      (⟨[("mem_1", ⟨"mem_1", "aa", [("timestamp", Value.vNat 0)],
        some [("aa", 1)], []⟩)], ⟨1000, 7/10, false, 30⟩, 2⟩ : Mem0) := by
  refine ⟨rfl, rfl, rfl, by simp, rfl, by rw [add_aa_eval]⟩

/-! Claim C3, on vector freshness. -/

theorem mem_mapSet {l : List (String × Memory)} {k : String} {v : Memory}
    {p : String × Memory} (h : p ∈ mapSet l k v) : p.2 = v ∨ p ∈ l := by
  unfold mapSet at h
  by_cases hany : l.any (fun p => p.1 == k)
  · rw [if_pos hany] at h
    obtain ⟨q, hq, hqe⟩ := List.mem_map.mp h
    by_cases hqk : q.1 == k
    · rw [if_pos hqk] at hqe
      left
      rw [← hqe]
    · rw [if_neg hqk] at hqe
      right
      rwa [← hqe]
  · rw [if_neg hany] at h
    rcases List.mem_append.mp h with h | h
    · exact Or.inr h
    · left
      rw [List.mem_singleton.mp h]

theorem vecFresh_evictOldest {s : Mem0} (h : VecFresh s) :
    VecFresh (evictOldest s) := by
  unfold evictOldest
  rcases oldestEntry s.memories with _ | ⟨k, t⟩
  · exact h
  · dsimp only
    by_cases hk : k = ""
    · rw [if_pos hk]
      exact h
    · rw [if_neg hk]
      intro p hp
      exact h p (List.mem_of_mem_filter hp)

theorem vecFresh_addFn {s : Mem0} (now : Nat) (c : String) (md : Metadata)
    (h : VecFresh s) : VecFresh ((addFn now s c md).2) := by
  unfold addFn
  simp only []
  split
  · exact fun p hp => h p hp
  · split
    · split
      · rename_i similar best tail heq hcond
        intro p hp
        obtain ⟨q, hq, hqe⟩ := List.mem_map.mp hp
        by_cases hqk : q.1 == best.key
        · rw [if_pos hqk] at hqe
          left
          rw [← hqe]
          rfl
        · rw [if_neg hqk] at hqe
          exact hqe ▸ h q hq
      · split
        · apply vecFresh_evictOldest
          intro p hp
          rcases mem_mapSet hp with hv | hmem
          · right
            rw [hv]
            rfl
          · exact h p hmem
        · intro p hp
          rcases mem_mapSet hp with hv | hmem
          · right
            rw [hv]
            rfl
          · exact h p hmem
    · split
      · apply vecFresh_evictOldest
        intro p hp
        rcases mem_mapSet hp with hv | hmem
        · right
          rw [hv]
          rfl
        · exact h p hmem
      · intro p hp
        rcases mem_mapSet hp with hv | hmem
        · right
          rw [hv]
          rfl
        · exact h p hmem

theorem vecFresh_updateFn {s : Mem0} (now : Nat) (id c : String) (md : Metadata)
    (h : VecFresh s) : VecFresh ((updateFn now s id c md).2) := by
  unfold updateFn
  rcases hm : mapGet s.memories id with _ | m
  · exact h
  · simp only []
    intro p hp
    rcases mem_mapSet hp with hv | hmem
    · right
      rw [hv]
      rfl
    · exact h p hmem

theorem vecFresh_deleteFn {s : Mem0} (id : String) (h : VecFresh s) :
    VecFresh ((deleteFn s id).2) := by
  intro p hp
  exact h p (List.mem_of_mem_filter hp)

theorem vecFresh_clearFn (s : Mem0) : VecFresh (clearFn s) := by
  intro p hp
  cases hp

theorem vecFresh_cleanupExpired {s : Mem0} (now : Nat) (h : VecFresh s) :
    VecFresh (cleanupExpired now s) := by
  unfold cleanupExpired
  by_cases ha : s.config.autoExpire
  · rw [if_pos ha]
    intro p hp
    exact h p (List.mem_of_mem_filter hp)
  · rw [if_neg ha]
    exact h

/-- C3 (amended): along every operation sequence of add, update,
delete, clear and expiry sweeps from a freshly constructed store, every
record's vector is, at rest, absent or exactly the vectorization of its
current content.  The claim as stated also quantifies over import,
which copies snapshot embeddings verbatim and can install a stale
vector — see the counterexample. -/
theorem claim_C3 (opts : InitOpts) (ops : List Op) :
    VecFresh (runOps (mkMem0 opts) ops) := by
  have hbase : VecFresh (mkMem0 opts) := by
    intro p hp
    cases hp
  have hstep : ∀ (l : List Op) (s : Mem0), VecFresh s → VecFresh (runOps s l) := by
    intro l
    induction l with
    | nil => exact fun s hs => hs
    | cons op rest ih =>
      intro s hs
      apply ih
      cases op with
      | opAdd now c md => exact vecFresh_addFn now c md hs
      | opUpdate now id c md => exact vecFresh_updateFn now id c md hs
      | opDelete id => exact vecFresh_deleteFn id hs
      | opClear => exact vecFresh_clearFn s
      | opCleanup now => exact vecFresh_cleanupExpired now hs
  exact hstep ops (mkMem0 opts) hbase

theorem embedding_a : computeEmbedding "a" = [("a", 1)] := by
  have h : freqOf (tokenize "a") = [("a", 1)] := by decide
  simp [computeEmbedding, h, maxFreq]

/-- C3 counterexample: the claim also quantifies over import, and
importing a snapshot whose serialized record carries an embedding that
does not match its content installs a stale, non-absent vector: the
imported record has content "a" but vector [("b", 1)], while the
vectorization of "a" is [("a", 1)]. -/
theorem claim_C3_counterexample :
    importFn 0 (mkMem0 {})
      (some ⟨none, some 1, some [("x", ⟨"x", "a", [], some [("b", 1)], none⟩)]⟩)
      = (true,
         ⟨[("x", ⟨"x", "a", [("timestamp", Value.vNat 0)], some [("b", 1)], []⟩)],
          ⟨1000, 7/10, false, 30⟩, 1⟩) ∧
    ¬ VecFresh
      (⟨[("x", ⟨"x", "a", [("timestamp", Value.vNat 0)], some [("b", 1)], []⟩)],
        ⟨1000, 7/10, false, 30⟩, 1⟩ : Mem0) := by
  constructor
  · simp [importFn, rebuildMemory, mkMemory, objMerge, mdLookup, tagsOf,
      mapSet, applyPatch, mkMem0, orDefaultNat, orDefaultQ]
  · intro h
    have hmem := h ("x", ⟨"x", "a", [("timestamp", Value.vNat 0)],
      some [("b", 1)], []⟩) (by simp)
    rcases hmem with h1 | h1
    · simp at h1
    · rw [embedding_a] at h1
      simp at h1

/-! Claim C2, on capacity enforcement and eviction. -/

theorem mem_mapSet_key {l : List (String × Memory)} {k : String} {v : Memory}
    {p : String × Memory} (h : p ∈ mapSet l k v) : p.1 = k ∨ p ∈ l := by
  unfold mapSet at h
  by_cases hany : l.any (fun p => p.1 == k)
  · rw [if_pos hany] at h
    obtain ⟨q, hq, hqe⟩ := List.mem_map.mp h
    by_cases hqk : q.1 == k
    · rw [if_pos hqk] at hqe
      left
      rw [← hqe]
      exact beq_iff_eq.mp hqk
    · rw [if_neg hqk] at hqe
      right
      rwa [← hqe]
  · rw [if_neg hany] at h
    rcases List.mem_append.mp h with h | h
    · exact Or.inr h
    · left
      rw [List.mem_singleton.mp h]

theorem evictOldest_memories_of {s : Mem0} {k : String} {t : Nat}
    (h : oldestEntry s.memories = some (k, t)) (hk : k ≠ "") :
    (evictOldest s).memories = mapErase s.memories k := by
  unfold evictOldest
  rw [h]
  dsimp only
  rw [if_neg hk]

/-- The capacity step at the end of the insert branch of add: given at
most one record of overflow, non-empty keys, and (in the overflow case)
at least one parseable timestamp, the store is back within the limit. -/
theorem ifEvict_length_le (s2 : Mem0)
    (hlen : s2.memories.length ≤ s2.config.maxMemories + 1)
    (hkeys : ∀ p ∈ s2.memories, p.1 ≠ "")
    (hex : s2.config.maxMemories < s2.memories.length →
      ∃ p ∈ s2.memories, (memTime p.2).isSome) :
    ((if s2.config.maxMemories < s2.memories.length
      then evictOldest s2 else s2).memories).length ≤ s2.config.maxMemories := by
  by_cases hc : s2.config.maxMemories < s2.memories.length
  · rw [if_pos hc]
    obtain ⟨p, hp, hsome⟩ := hex hc
    have hos := oldestEntry_isSome hp hsome
    rcases hkt : oldestEntry s2.memories with _ | ⟨k, t⟩
    · rw [hkt] at hos
      cases hos
    · obtain ⟨m, hkm, _⟩ := oldestEntry_mem hkt
      have hkne : k ≠ "" := hkeys (k, m) hkm
      rw [evictOldest_memories_of hkt hkne]
      have hdec := mapErase_length_lt hkm
      omega
  · rw [if_neg hc]
    omega

/-- C2 (amended): provided the store is within its capacity before the
call, the capacity is at least one, and every stored record has a
non-empty key and a parseable timestamp (all of which hold for stores
maintained through add alone, but can be violated through import or
timestamp-overriding metadata — see the counterexample), the record
count after add is at most the configured maximum; and the record
evictOldest selects is one carrying the globally smallest parseable
timestamp (first in iteration order on ties) and is the one removed. -/
theorem claim_C2 :
    (∀ (now : Nat) (s : Mem0) (content : String) (md : Metadata),
      s.memories.length ≤ s.config.maxMemories →
      1 ≤ s.config.maxMemories →
      (∀ p ∈ s.memories, p.1 ≠ "" ∧ (memTime p.2).isSome) →
      ((addFn now s content md).2).memories.length ≤ s.config.maxMemories) ∧
    (∀ (entries : List (String × Memory)) (k : String) (t : Nat),
      oldestEntry entries = some (k, t) →
      (∃ m, (k, m) ∈ entries ∧ memTime m = some t) ∧
      (∀ p ∈ entries, ∀ t2, memTime p.2 = some t2 → t ≤ t2)) ∧
    (∀ (s : Mem0) (k : String) (t : Nat),
      oldestEntry s.memories = some (k, t) → k ≠ "" →
      (evictOldest s).memories = mapErase s.memories k) := by
  refine ⟨?_, ?_, ?_⟩
  · intro now s content md h1 h2 h3
    have hins : ∀ mem : Memory,
        ((if s.config.maxMemories <
            (mapSet s.memories ("mem_" ++ toString s.nextId) mem).length
          then evictOldest
            { s with
              memories := mapSet s.memories ("mem_" ++ toString s.nextId) mem
              nextId := s.nextId + 1 }
          else
            { s with
              memories := mapSet s.memories ("mem_" ++ toString s.nextId) mem
              nextId := s.nextId + 1 }).memories).length ≤
          s.config.maxMemories := by
      intro mem
      apply ifEvict_length_le
        ({ s with
           memories := mapSet s.memories ("mem_" ++ toString s.nextId) mem
           nextId := s.nextId + 1 })
      · dsimp only
        by_cases hany : s.memories.any (fun p => p.1 == "mem_" ++ toString s.nextId)
        · rw [mapSet_length_present _ hany]
          omega
        · rw [mapSet_length_absent _ hany]
          omega
      · intro p hp
        rcases mem_mapSet_key hp with hke | hmem
        · rw [hke]
          exact memId_ne_empty s.nextId
        · exact (h3 p hmem).1
      · dsimp only
        intro hov
        by_cases hany : s.memories.any (fun p => p.1 == "mem_" ++ toString s.nextId)
        · rw [mapSet_length_present _ hany] at hov
          omega
        · have hne : s.memories ≠ [] := by
            intro hnil
            rw [mapSet_length_absent _ hany, hnil] at hov
            simp at hov
            omega
          obtain ⟨p0, hp0⟩ := List.exists_mem_of_ne_nil _ hne
          refine ⟨p0, ?_, (h3 p0 hp0).2⟩
          unfold mapSet
          rw [if_neg hany]
          exact List.mem_append_left _ hp0
    unfold addFn
    simp only []
    split
    · exact h1
    · split
      · split
        · simpa using h1
        · exact hins _
      · exact hins _
  · intro entries k t h
    exact ⟨oldestEntry_mem h, oldestEntry_min h⟩
  · intro s k t h hk
    exact evictOldest_memories_of h hk

/-- C2 witness: the bound applied to an add of "bb" on the concrete
one-record store built by adding "aa". -/
theorem claim_C2_witness :
    ((addFn 5 (⟨[("mem_1", ⟨"mem_1", "aa", [("timestamp", Value.vNat 0)],
        some [("aa", 1)], []⟩)], ⟨1000, 7/10, false, 30⟩, 2⟩ : Mem0)
      "bb" []).2).memories.length ≤ 1000 := by
  apply claim_C2.1 5 _ "bb" []
  · decide
  · decide
  · intro p hp
    rw [List.mem_singleton.mp hp]
    exact ⟨by decide, by decide⟩

/-- C2 counterexample: with maxMemories 1, adding "aa" and then the
dissimilar "bb", each with metadata overriding `timestamp` by an
unparseable string, leaves two records in the store after the second
add completes — the eviction fold skips every NaN timestamp, finds no
oldest record and deletes nothing, so the count exceeds the maximum. -/
theorem claim_C2_counterexample :
    addFn 1 (addFn 0 (mkMem0 { maxMemories := some 1 }) "aa"
        [("timestamp", Value.vStr "junk")]).2 "bb"
        [("timestamp", Value.vStr "junk2")] =
      (some "mem_2",
       ⟨[("mem_1", ⟨"mem_1", "aa", [("timestamp", Value.vStr "junk")],
           some [("aa", 1)], []⟩),
         ("mem_2", ⟨"mem_2", "bb", [("timestamp", Value.vStr "junk2")],
           some [("bb", 1)], []⟩)],
        ⟨1, 7/10, false, 30⟩, 3⟩) ∧
    (⟨[("mem_1", ⟨"mem_1", "aa", [("timestamp", Value.vStr "junk")],
         some [("aa", 1)], []⟩),
       ("mem_2", ⟨"mem_2", "bb", [("timestamp", Value.vStr "junk2")],
         some [("bb", 1)], []⟩)],
      ⟨1, 7/10, false, 30⟩, 3⟩ : Mem0).memories.length = 2 ∧
    (⟨[("mem_1", ⟨"mem_1", "aa", [("timestamp", Value.vStr "junk")],
         some [("aa", 1)], []⟩),
       ("mem_2", ⟨"mem_2", "bb", [("timestamp", Value.vStr "junk2")],
         some [("bb", 1)], []⟩)],
      ⟨1, 7/10, false, 30⟩, 3⟩ : Mem0).config.maxMemories = 1 := by
  refine ⟨?_, rfl, rfl⟩
  have hid1 : "mem_" ++ toString 1 = "mem_1" := by decide
  have hid2 : "mem_" ++ toString 2 = "mem_2" := by decide
  have hfirst : addFn 0 (mkMem0 { maxMemories := some 1 }) "aa"
      [("timestamp", Value.vStr "junk")] =
      (some "mem_1",
       ⟨[("mem_1", ⟨"mem_1", "aa", [("timestamp", Value.vStr "junk")],
           some [("aa", 1)], []⟩)], ⟨1, 7/10, false, 30⟩, 2⟩) := by
    simp [addFn, findSimilarFn, searchFn, searchGo, mkMem0, mkMemory, objMerge,
      mdLookup, tagsOf, mapSet, embedding_aa, orDefaultNat, orDefaultQ, hid1]
  rw [hfirst]
  rw [show ((some "mem_1",
      (⟨[("mem_1", ⟨"mem_1", "aa", [("timestamp", Value.vStr "junk")],
        some [("aa", 1)], []⟩)], ⟨1, 7/10, false, 30⟩, 2⟩ : Mem0))).2 =
      (⟨[("mem_1", ⟨"mem_1", "aa", [("timestamp", Value.vStr "junk")],
        some [("aa", 1)], []⟩)], ⟨1, 7/10, false, 30⟩, 2⟩ : Mem0) from rfl]
  simp [addFn, findSimilarFn, searchFn, searchGo, mkMemory, objMerge,
    mdLookup, tagsOf, mapSet, embedding_bb, cosineSq_bb_aa, hid2,
    List.mergeSort, evictOldest, oldestEntry, memTime, timeOf]

/-! Claim C6, the export and import round trip. -/

/-- On a metadata object whose first key is `timestamp` (and which
holds no second `timestamp`), the constructor spread
`\x7btimestamp: now, ...metadata\x7d` reproduces the object exactly. -/
theorem objMerge_timestamp_id {md : Metadata} (now : Nat)
    (h : tsFirstB md = true) :
    objMerge [("timestamp", Value.vNat now)] md = md := by
  match md, h with
  | (k, v) :: rest, h =>
    simp only [tsFirstB, Bool.and_eq_true, beq_iff_eq, Bool.not_eq_true'] at h
    obtain ⟨hk, hrest⟩ := h
    subst hk
    have h1 : List.map (fun p => match mdLookup (("timestamp", v) :: rest) p.1 with
        | some w => (p.1, w)
        | none => p) [(("timestamp" : String), Value.vNat now)] =
        [(("timestamp" : String), v)] := by
      simp [mdLookup, List.find?_cons]
    have h2 : ((("timestamp" : String), v) :: rest).filter
        (fun q => ¬ ([(("timestamp" : String), Value.vNat now)].any
          (fun p => p.1 == q.1))) = rest := by
      rw [List.filter_cons]
      rw [if_neg (by simp)]
      apply List.filter_eq_self.mpr
      intro q hq
      have hqk : ¬ (q.1 == "timestamp") = true := by
        have := List.any_eq_false.mp hrest q hq
        simpa using this
      have hqk2 : q.1 ≠ "timestamp" := fun hc => hqk (beq_iff_eq.mpr hc)
      simpa using Ne.symm hqk2
    rw [objMerge, h1, h2]
    rfl

/-- Serializing one record and rebuilding it through import restores it
exactly, provided its metadata carries the timestamp key first. -/
theorem rebuildMemory_memDataOf {m : Memory} (now : Nat)
    (h : tsFirstB m.metadata = true) :
    rebuildMemory now (memDataOf m) = m := by
  have hmd := objMerge_timestamp_id now h
  cases m with
  | mk id content metadata embeddings tags =>
    simp only [rebuildMemory, memDataOf, mkMemory] at *
    simp [hmd]

/-- Folding Map.set over entries with fresh, pairwise distinct keys
appends them in order. -/
theorem foldl_mapSet_of_nodup (f : String × MemData → Memory) :
    ∀ (entries : List (String × MemData)) (acc : List (String × Memory)),
    (acc.map (fun p => p.1) ++ entries.map (fun p => p.1)).Nodup →
    entries.foldl (fun acc kv => mapSet acc kv.1 (f kv)) acc =
      acc ++ entries.map (fun kv => (kv.1, f kv)) := by
  intro entries
  induction entries with
  | nil =>
    intro acc _
    simp
  | cons e rest ih =>
    intro acc hnd
    have hnotin : e.1 ∉ acc.map (fun p => p.1) := by
      rcases List.nodup_append.mp hnd with ⟨_, _, hdisj⟩
      intro hc
      exact hdisj hc (by simp)
    have hany : ¬ acc.any (fun p => p.1 == e.1) := by
      intro hc
      obtain ⟨q, hq, hqe⟩ := List.any_eq_true.mp hc
      exact hnotin (List.mem_map.mpr ⟨q, hq, beq_iff_eq.mp hqe⟩)
    have hstep : mapSet acc e.1 (f e) = acc ++ [(e.1, f e)] := by
      rw [mapSet, if_neg hany]
    simp only [List.foldl_cons, hstep]
    have hnd2 : ((acc ++ [(e.1, f e)]).map (fun p => p.1) ++
        rest.map (fun p => p.1)).Nodup := by
      rw [List.map_append]
      simp only [List.map_cons, List.map_nil]
      rw [List.append_assoc]
      simpa using hnd
    rw [ih (acc ++ [(e.1, f e)]) hnd2]
    simp

/-- C6: exporting a store and importing the snapshot into a fresh store
of the same configuration reproduces the record set exactly — same map
keys in order, and for every record the same id, content, metadata,
tags (and embeddings) — and the same nextId, provided the exported
store has a positive id counter, distinct keys and timestamp-first
metadata, as every store maintained through the public interface
does. -/
theorem claim_C6 (now : Nat) (s : Mem0)
    (h1 : 1 ≤ s.nextId)
    (h2 : (s.memories.map (fun p => p.1)).Nodup)
    (h3 : ∀ p ∈ s.memories, tsFirstB p.2.metadata = true) :
    importFn now (⟨[], s.config, 1⟩ : Mem0) (some (exportFn s)) = (true, s) := by
  rw [importFn, exportFn]
  simp only []
  have hfold : (s.memories.map (fun p => (p.1, memDataOf p.2))).foldl
      (fun acc kv => mapSet acc kv.1 (rebuildMemory now kv.2)) [] = s.memories := by
    have hkeys : (([] : List (String × Memory)).map (fun p => p.1) ++
        (s.memories.map (fun p => (p.1, memDataOf p.2))).map (fun p => p.1)).Nodup := by
      simpa [List.map_map, Function.comp] using h2
    rw [foldl_mapSet_of_nodup (fun kv => rebuildMemory now kv.2) _ _ hkeys]
    rw [List.nil_append, List.map_map]
    calc s.memories.map ((fun kv => (kv.1, rebuildMemory now kv.2)) ∘
          (fun p => (p.1, memDataOf p.2)))
        = s.memories.map (fun p => (p.1, rebuildMemory now (memDataOf p.2))) := by
          simp [Function.comp]
      _ = s.memories.map (fun p => (p.1, p.2)) := by
          apply List.map_congr_left
          intro p hp
          rw [rebuildMemory_memDataOf now (h3 p hp)]
      _ = s.memories := by simp
  rw [hfold]
  have hnext : (if s.nextId = 0 then 1 else s.nextId) = s.nextId := by
    rw [if_neg (by omega)]
  simp only [Option.getD_some]
  rw [hnext]
  rfl

/-- C6 witness: the round trip on the concrete one-record store built
by adding "aa". -/
theorem claim_C6_witness :
    importFn 9 (⟨[], ⟨1000, 7/10, false, 30⟩, 1⟩ : Mem0)
      (some (exportFn (⟨[("mem_1", ⟨"mem_1", "aa", [("timestamp", Value.vNat 0)],
        some [("aa", 1)], []⟩)], ⟨1000, 7/10, false, 30⟩, 2⟩ : Mem0))) =
      (true, ⟨[("mem_1", ⟨"mem_1", "aa", [("timestamp", Value.vNat 0)],
        some [("aa", 1)], []⟩)], ⟨1000, 7/10, false, 30⟩, 2⟩) := by
  apply claim_C6 9
  · decide
  · decide
  · intro p hp
    rw [List.mem_singleton.mp hp]
    decide

end MemZero
